import Mathlib

/-!
# OSRA bounded values

A shallow embedding of the classes `BoundedValue`, `OSR` and `BVMap` of
`osra.h` (the lattice elements and the store of the Offset Shifted Range
Analysis) and of the methods of `OSRAPass` defined in that header, together
with the helpers `getLimitedValue`, `operandsByType`, `isa_with_op` and
`visitSuccessors` of `ir-helpers.h`.

Conventions of the embedding:

* `uint64_t` quantities are natural numbers; every arithmetic operation of the
  source is followed by an explicit reduction modulo `2^64`.
* A failed `assert`, a failed `llvm::cast` and `llvm_unreachable` abort the
  program; a function that can reach one of them returns an `Option`, with
  `none` for the abort.
* Pointers to LLVM values are compared by identity in the source; here a value
  is identified by its kind and an identifier, and integer constants (which
  LLVM uniques) by their type width and numerical value.
-/

namespace OSRA

/-- The kinds of `llvm::Value` the header distinguishes: integer constants,
instructions, and everything else (arguments). -/
inductive LLVMValue where
  | ConstantInt (BitWidth : Nat) (Val : Nat)
  | Instruction (Id : Nat)
  | Argument (Id : Nat)
  deriving DecidableEq, Repr

/-- The test `llvm::dyn_cast<llvm::ConstantInt>(V) != nullptr`. -/
def LLVMValue.isConstantInt : LLVMValue → Bool
  | .ConstantInt _ _ => true
  | _ => false

/-- The value `std::numeric_limits<uint64_t>::max()`. -/
def UINT64_MAX : Nat := 2 ^ 64 - 1

/-- The value `std::numeric_limits<uint64_t>::min()`. -/
def UINT64_MIN : Nat := 0

/-- The value `std::numeric_limits<int64_t>::max()`. -/
def INT64_MAX : Nat := 2 ^ 63 - 1

/-- The value `std::numeric_limits<int64_t>::min()` once converted to
`uint64_t`, as happens in the return statement of `lowerExtreme`. -/
def INT64_MIN : Nat := 2 ^ 63

/-- The sum of two `uint64_t`. -/
def u64add (a b : Nat) : Nat := (a + b) % 2 ^ 64

/-- The difference of two `uint64_t`. -/
def u64sub (a b : Nat) : Nat := (a + (2 ^ 64 - b % 2 ^ 64)) % 2 ^ 64

/-- The helper `getLimitedValue` of `ir-helpers.h`:
`llvm::cast<llvm::ConstantInt>(V)->getLimitedValue()`. The cast aborts on
anything that is not an integer constant; on an integer constant LLVM returns
its zero-extended value saturated at the default limit `UINT64_MAX`. -/
def getLimitedValue : LLVMValue → Option Nat
  | .ConstantInt _ Val => some (min Val UINT64_MAX)
  | _ => none

/-- The call `llvm::ConstantInt::get(Int64, V, IsSigned)` with `Int64` the
64-bit integer type: the constant is represented by its 64-bit pattern, on
which the flag `IsSigned` has no influence (it only matters for wider types). -/
def ConstantInt_get (V : Nat) (_IsSigned : Bool) : Nat := V % 2 ^ 64

/-- The enumeration `BoundedValue::Signedness`. -/
inductive Signedness where
  | UnknownSignedness
  | AnySignedness
  | Unsigned
  | Signed
  | InconsistentSignedness
  deriving DecidableEq, Repr

/-- The data members of `OSRAPass::BoundedValue`. `Value` is `none` for the
null pointer; `Bottom` and `Negated` are `uint8_t` in the source and only ever
hold 0 or 1. -/
structure BoundedValue where
  Value : Option LLVMValue
  LowerBound : Nat
  UpperBound : Nat
  Sign : Signedness
  Bottom : Bool
  Negated : Bool
  deriving DecidableEq, Repr

namespace BoundedValue

/-- The constructor `BoundedValue(const llvm::Value *V)`, for a non-null `V`
(`dyn_cast` does not accept a null pointer). -/
def ofValue (V : LLVMValue) : Option BoundedValue :=
  let Result : BoundedValue :=
    { Value := some V, LowerBound := 0, UpperBound := 0,
      Sign := .UnknownSignedness, Bottom := false, Negated := false }
  if V.isConstantInt then do
    let k ← getLimitedValue V
    pure { Result with LowerBound := k, UpperBound := k, Sign := .AnySignedness }
  else
    pure Result

/-- The constructor `BoundedValue()`. -/
def mkDefault : BoundedValue :=
  { Value := none, LowerBound := 0, UpperBound := 0,
    Sign := .UnknownSignedness, Bottom := false, Negated := false }

/-- Modelled from the spec: `setSignedness` is declared in `osra.h` and defined
outside of it. The model follows the transitions its declaration documents
(Unknown to Signed or Unsigned, Signed and Unsigned to themselves or to
Inconsistent, Inconsistent a sink) and changes no other field. The transition
out of `AnySignedness` is not documented and is the parameter `onAny`. -/
def setSignedness (onAny : Bool → Signedness) (b : BoundedValue) (IsSigned : Bool) :
    BoundedValue :=
  { b with
    Sign :=
      match b.Sign, IsSigned with
      | .UnknownSignedness, true => .Signed
      | .UnknownSignedness, false => .Unsigned
      | .Signed, true => .Signed
      | .Signed, false => .InconsistentSignedness
      | .Unsigned, false => .Unsigned
      | .Unsigned, true => .InconsistentSignedness
      | .InconsistentSignedness, _ => .InconsistentSignedness
      | .AnySignedness, s => onAny s }

/-- The method `isUninitialized`. -/
def isUninitialized (b : BoundedValue) : Bool :=
  b.Sign == .UnknownSignedness

/-- The method `hasSignedness`. -/
def hasSignedness (b : BoundedValue) : Bool :=
  b.Sign != .UnknownSignedness && b.Sign != .AnySignedness

/-- The method `isConstant`. -/
def isConstant (b : BoundedValue) : Bool :=
  !b.isUninitialized && !b.Bottom && b.LowerBound == b.UpperBound

/-- The method `constant`, with its assertion. -/
def constant (b : BoundedValue) : Option Nat :=
  if b.isConstant then some b.LowerBound else none

/-- The accessor `value`. -/
def value (b : BoundedValue) : Option LLVMValue := b.Value

/-- The method `isSigned`, with its assertion. -/
def isSigned (b : BoundedValue) : Option Bool :=
  if b.Sign != .UnknownSignedness && b.Sign != .AnySignedness && !b.Bottom then
    some (b.Sign != .Unsigned)
  else
    none

/-- The method `lower`. -/
def lower (b : BoundedValue) : Option Nat := do
  let s ← b.isSigned
  pure (ConstantInt_get b.LowerBound s)

/-- The method `upper`. -/
def upper (b : BoundedValue) : Option Nat := do
  let s ← b.isSigned
  pure (ConstantInt_get b.UpperBound s)

/-- The private method `lowerExtreme`; the default case is unreachable. -/
def lowerExtreme (b : BoundedValue) : Option Nat :=
  match b.Sign with
  | .Unsigned => some UINT64_MIN
  | .Signed => some INT64_MIN
  | .InconsistentSignedness => some UINT64_MIN
  | _ => none

/-- The private method `upperExtreme`; the default case is unreachable. -/
def upperExtreme (b : BoundedValue) : Option Nat :=
  match b.Sign with
  | .Unsigned => some UINT64_MAX
  | .Signed => some INT64_MAX
  | .InconsistentSignedness => some INT64_MAX
  | _ => none

/-- The method `actualBoundaries`: the two constants it returns are given by
their 64-bit patterns. -/
def actualBoundaries (b : BoundedValue) : Option (Nat × Nat) :=
  if b.Negated && b.isConstant then
    none
  else if !b.Negated then do
    let lo ← b.lower
    let hi ← b.upper
    pure (lo, hi)
  else do
    let le ← b.lowerExtreme
    if b.LowerBound == le then do
      let s ← b.isSigned
      let ue ← b.upperExtreme
      let s2 ← b.isSigned
      pure (ConstantInt_get (u64add b.UpperBound 1) s, ConstantInt_get ue s2)
    else do
      let ue ← b.upperExtreme
      if b.UpperBound == ue then do
        let le2 ← b.lowerExtreme
        let s ← b.isSigned
        let s2 ← b.isSigned
        pure (ConstantInt_get le2 s, ConstantInt_get (u64sub b.LowerBound 1) s2)
      else
        none

/-- The comparison `operator ==`. -/
def op_eq (b Other : BoundedValue) : Bool :=
  if b.Bottom || Other.Bottom then
    b.Bottom == Other.Bottom
  else
    (b.Value == Other.Value
      && b.LowerBound == Other.LowerBound
      && b.UpperBound == Other.UpperBound
      && b.Sign == Other.Sign
      && b.Bottom == Other.Bottom
      && b.Negated == Other.Negated)

/-- The comparison `operator !=`. -/
def op_ne (b Other : BoundedValue) : Bool :=
  !(b.op_eq Other)

/-- The method `flip`. -/
def flip (b : BoundedValue) : BoundedValue :=
  { b with Negated := !b.Negated }

/-- The method `setBottom`, with its assertion. -/
def setBottom (b : BoundedValue) : Option BoundedValue :=
  if !b.Bottom then some { b with Bottom := true } else none

/-- The method `isBottom`. -/
def isBottom (b : BoundedValue) : Bool := b.Bottom

/-- The method `isTop`, with the short-circuit evaluation of its condition:
the extremes are only computed where the source computes them. -/
def isTop (b : BoundedValue) : Option Bool :=
  if !b.isConstant && b.Sign != .AnySignedness then
    if b.isUninitialized then
      some true
    else if !b.Negated then do
      let le ← b.lowerExtreme
      if b.LowerBound == le then do
        let ue ← b.upperExtreme
        pure (b.UpperBound == ue)
      else
        pure false
    else
      some false
  else
    some false

/-- The factory `createGE`. -/
def createGE (onAny : Bool → Signedness) (V : LLVMValue) (Value : Nat) (Sign : Bool) :
    Option BoundedValue := do
  let Result ← ofValue V
  let Result := setSignedness onAny Result Sign
  let Result := { Result with LowerBound := Value }
  let ue ← Result.upperExtreme
  pure { Result with UpperBound := ue }

/-- The factory `createLE`. -/
def createLE (onAny : Bool → Signedness) (V : LLVMValue) (Value : Nat) (Sign : Bool) :
    Option BoundedValue := do
  let Result ← ofValue V
  let Result := setSignedness onAny Result Sign
  let le ← Result.lowerExtreme
  let Result := { Result with LowerBound := le }
  pure { Result with UpperBound := Value }

/-- The factory `createEQ`. -/
def createEQ (onAny : Bool → Signedness) (V : LLVMValue) (Value : Nat) (Sign : Bool) :
    Option BoundedValue := do
  let Result ← ofValue V
  let Result := setSignedness onAny Result Sign
  pure { Result with LowerBound := Value, UpperBound := Value }

/-- The factory `createNE`. -/
def createNE (onAny : Bool → Signedness) (V : LLVMValue) (Value : Nat) (Sign : Bool) :
    Option BoundedValue := do
  let Result ← ofValue V
  let Result := setSignedness onAny Result Sign
  pure { Result with LowerBound := Value, UpperBound := Value, Negated := true }

/-- The factory `createConstant`. -/
def createConstant (V : LLVMValue) (Value : Nat) : Option BoundedValue := do
  let Result ← ofValue V
  pure { Result with LowerBound := Value, UpperBound := Value, Sign := .AnySignedness }

/-- The method `setTop`. -/
def setTop (b : BoundedValue) : Option BoundedValue :=
  if b.isUninitialized then
    some b
  else if b.Sign == .AnySignedness then
    some { b with LowerBound := 0, UpperBound := 0, Sign := .UnknownSignedness,
                  Negated := false, Bottom := false }
  else do
    let le ← b.lowerExtreme
    let b1 := { b with LowerBound := le }
    let ue ← b1.upperExtreme
    pure { b1 with UpperBound := ue, Negated := false, Bottom := false }

/-- The method `isSingleRange`. -/
def isSingleRange (b : BoundedValue) : Option Bool :=
  if !b.Negated then
    some true
  else if b.Negated && b.isConstant then
    some false
  else do
    let le ← b.lowerExtreme
    if b.LowerBound == le then
      pure true
    else do
      let ue ← b.upperExtreme
      pure (b.UpperBound == ue)

end BoundedValue

/-- The definition of top in the data model: the sign is not `Any`, and the
value is uninitialized or it is not negated with both bounds at the extremes
of its sign. -/
def specTop (b : BoundedValue) : Prop :=
  b.Sign ≠ .AnySignedness ∧
    (b.Sign = .UnknownSignedness ∨
      (b.Negated = false ∧ b.lowerExtreme = some b.LowerBound ∧
        b.upperExtreme = some b.UpperBound))

/-- The value a 64-bit pattern has as a two's complement number. -/
def toSigned (x : Nat) : Int :=
  if x < 2 ^ 63 then (x : Int) else (x : Int) - 2 ^ 64

/-- The ordering of 64-bit patterns under a signedness: unsigned comparison
for `Unsigned`, two's complement comparison for the signednesses on which
`isSigned` answers true. -/
def leUnder (s : Signedness) (a b : Nat) : Prop :=
  if s = .Unsigned then a ≤ b else toSigned a ≤ toSigned b

/-- A 64-bit pattern lies in the closed interval of two others. -/
def inInterval (s : Signedness) (lo hi x : Nat) : Prop :=
  leUnder s lo x ∧ leUnder s x hi

/-- The full range of a concrete signedness: the 64-bit patterns between the
two extremes. -/
def inFullRange (b : BoundedValue) (x : Nat) : Prop :=
  x < 2 ^ 64 ∧ ∃ lo hi, b.lowerExtreme = some lo ∧ b.upperExtreme = some hi ∧
    inInterval b.Sign lo hi x

/-- The mutators of a bounded value defined in the header. -/
inductive Mutator where
  | flip
  | setBottom
  | setTop
  deriving DecidableEq, Repr

/-- One mutator applied to a bounded value; `none` when an assertion fails. -/
def Mutator.run : Mutator → BoundedValue → Option BoundedValue
  | .flip, b => some b.flip
  | .setBottom, b => b.setBottom
  | .setTop, b => b.setTop

/-- A sequence of mutators applied from left to right. -/
def runMutators : List Mutator → BoundedValue → Option BoundedValue
  | [], b => some b
  | m :: ms, b => (m.run b).bind (runMutators ms)

/-- The ways the header offers to build a bounded value: the two constructors
and the `create` factories. -/
inductive Factory where
  | ofValue (V : LLVMValue)
  | mkDefault
  | createGE (V : LLVMValue) (Value : Nat) (Sign : Bool)
  | createLE (V : LLVMValue) (Value : Nat) (Sign : Bool)
  | createEQ (V : LLVMValue) (Value : Nat) (Sign : Bool)
  | createNE (V : LLVMValue) (Value : Nat) (Sign : Bool)
  | createConstant (V : LLVMValue) (Value : Nat)
  deriving DecidableEq, Repr

/-- The bounded value a constructor or factory call builds. -/
def Factory.build (onAny : Bool → Signedness) : Factory → Option BoundedValue
  | .ofValue V => BoundedValue.ofValue V
  | .mkDefault => some BoundedValue.mkDefault
  | .createGE V k s => BoundedValue.createGE onAny V k s
  | .createLE V k s => BoundedValue.createLE onAny V k s
  | .createEQ V k s => BoundedValue.createEQ onAny V k s
  | .createNE V k s => BoundedValue.createNE onAny V k s
  | .createConstant V k => BoundedValue.createConstant V k

/-- The data-model invariant of constants: a bounded value of sign `Any` has
equal bounds and is not negated. -/
def ConstantInv (b : BoundedValue) : Prop :=
  b.Sign = .AnySignedness → b.LowerBound = b.UpperBound ∧ b.Negated = false

/-- A negated unsigned bounded value whose interval is the whole unsigned
range, so that it denotes no value at all. -/
def negatedFullRange : BoundedValue :=
  { Value := some (.Instruction 0), LowerBound := 0, UpperBound := 2 ^ 64 - 1,
    Sign := .Unsigned, Bottom := false, Negated := true }

/-- The bounded value `createNE(v, 0, false)` builds for an instruction `v`:
every unsigned value except zero. -/
def neZeroUnsigned : BoundedValue :=
  { Value := some (.Instruction 0), LowerBound := 0, UpperBound := 0,
    Sign := .Unsigned, Bottom := false, Negated := true }

/-- A negated unsigned bounded value that stands for every value above five. -/
def aboveFive : BoundedValue :=
  { Value := some (.Instruction 0), LowerBound := 0, UpperBound := 5,
    Sign := .Unsigned, Bottom := false, Negated := true }

/-- The signedness a use of the given kind gives to a fresh bounded value. -/
def Signedness.ofIsSigned (IsSigned : Bool) : Signedness :=
  if IsSigned then .Signed else .Unsigned

/-- The uninitialized bounded value of an instruction after `setBottom`. -/
def uninitializedBottom : BoundedValue :=
  { Value := some (.Instruction 0), LowerBound := 0, UpperBound := 0,
    Sign := .UnknownSignedness, Bottom := true, Negated := false }

/-- The bounded value `createConstant(v, 5)` builds for an instruction `v`. -/
def constantFive : BoundedValue :=
  { Value := some (.Instruction 0), LowerBound := 5, UpperBound := 5,
    Sign := .AnySignedness, Bottom := false, Negated := false }

/-- A pointer to an `llvm::BasicBlock`, identified by a number. -/
abbrev BasicBlock := Nat

/-- A `std::map` of the source, as the partial function from its keys to the
values stored under them. -/
abbrev StdMap (K V : Type) := K → Option V

/-- The empty `std::map`. -/
def StdMap.empty {K V : Type} : StdMap K V := fun _ => none

/-- The assignment `Map[Key] = Value` on a `std::map`: the entry is created or
overwritten. -/
def StdMap.assign {K V : Type} [DecidableEq K] (Map : StdMap K V) (Key : K) (Value : V) :
    StdMap K V :=
  fun k => if k = Key then some Value else Map k

/-- Modelled from the spec: `freeContainer` is called by the header and defined
outside of it; state is dropped on release, so the container it is applied to
is left empty. -/
def freeContainer {K V : Type} (_Container : StdMap K V) : StdMap K V := StdMap.empty

/-- The key type `BVMap::MapIndex`; the value pointer may be null. -/
abbrev MapIndex := BasicBlock × Option LLVMValue

/-- The record `BVMap::MapValue`; a component is a `BVWithOrigin`, the pair of
a predecessor block and a bounded value. -/
structure MapValue where
  Summary : BoundedValue
  Components : List (BasicBlock × BoundedValue)
  deriving DecidableEq, Repr

/-- A pointer to a `BoundedValue`. The pointers the header hands out point
into the `BVMap`, to the summary of an entry or to one of its components;
they are identified by the key of the entry, so that they are read through the
current state of the map. A pointer to a bounded value stored anywhere else
carries the bounded value it points to. -/
inductive BVPointer where
  | null
  | summary (BB : BasicBlock) (V : Option LLVMValue)
  | component (BB : BasicBlock) (V : Option LLVMValue) (Position : Nat)
  | outside (Target : BoundedValue)
  deriving DecidableEq, Repr

/-- The data members `TheMap` and `BBMap` of `OSRAPass::BVMap` (the black list,
the data layout and the type it also holds are never written by the methods
embedded here). -/
structure BVMap where
  TheMap : StdMap MapIndex MapValue
  BBMap : StdMap BasicBlock (List MapValue)

namespace BVMap

/-- The bounded value a pointer points to, when it points to one: `none` for
the null pointer and for a pointer into an entry that does not exist. -/
def deref (m : BVMap) : BVPointer → Option BoundedValue
  | .null => none
  | .summary BB V => (m.TheMap (BB, V)).map (fun mv => mv.Summary)
  | .component BB V Position =>
    (m.TheMap (BB, V)).bind (fun mv => (mv.Components.get? Position).map (fun c => c.2))
  | .outside Target => some Target

/-- Modelled from the spec: `summarize` is declared in `osra.h` and defined
outside of it. Following the spec it recomputes the summary of the entry it is
handed (here by its key) from that entry alone and returns a reference to that
summary; no other entry changes. How the summary is computed from the entry
(the meet of the components, also defined outside the header) is the parameter
`recompute`. -/
def summarize (recompute : BasicBlock → MapValue → BoundedValue) (m : BVMap)
    (Target : BasicBlock) (Index : MapIndex) : Option (BVPointer × BVMap) := do
  let mv ← m.TheMap Index
  let m2 : BVMap :=
    { m with TheMap := m.TheMap.assign Index { mv with Summary := recompute Target mv } }
  pure (.summary Index.1 Index.2, m2)

/-- The method `BVMap::get`: the reference it returns and the map it leaves. -/
def get (recompute : BasicBlock → MapValue → BoundedValue) (m : BVMap)
    (BB : BasicBlock) (V : Option LLVMValue) : Option (BVPointer × BVMap) :=
  let Index : MapIndex := (BB, V)
  match m.TheMap Index with
  | none => do
    let v ← V
    let Summary ← BoundedValue.ofValue v
    let NewBVOVector : MapValue := { Summary := Summary, Components := [] }
    let m1 : BVMap := { m with TheMap := m.TheMap.assign Index NewBVOVector }
    summarize recompute m1 BB Index
  | some _ => some (.summary BB V, m)

/-- The method `BVMap::getEdge`. -/
def getEdge (m : BVMap) (BB Predecessor : BasicBlock) (V : Option LLVMValue) : BVPointer :=
  match m.TheMap (BB, V) with
  | some mv =>
    match mv.Components.findIdx? (fun Component => Component.1 == Predecessor) with
    | some Position => .component BB V Position
    | none => .null
  | none => .null

/-- The method `BVMap::forceBV` on a block and a value. -/
def forceBV (m : BVMap) (BB : BasicBlock) (V : Option LLVMValue) (BV : BoundedValue) :
    BVPointer × BVMap :=
  let I : MapIndex := (BB, V)
  let NewValue : MapValue := { Summary := BV, Components := [] }
  (.summary I.1 I.2, { m with TheMap := m.TheMap.assign I NewValue })

/-- The method `BVMap::forceBV` on an instruction, given by its number; the
parameter `getParent` gives the block of every instruction. -/
def forceBVInstruction (getParent : Nat → BasicBlock) (m : BVMap) (V : Nat)
    (BV : BoundedValue) : BVPointer × BVMap :=
  let I : MapIndex := (getParent V, some (.Instruction V))
  let NewValue : MapValue := { Summary := BV, Components := [] }
  (.summary I.1 I.2, { m with TheMap := m.TheMap.assign I NewValue })

/-- The method `BVMap::clear`. -/
def clear (m : BVMap) : BVMap :=
  { TheMap := freeContainer m.TheMap, BBMap := freeContainer m.BBMap }

/-- The method `BVMap::isForced` on the entry under a key; `dyn_cast` aborts on
a null value pointer, and the iterator has to point to an entry. -/
def isForced (getParent : Nat → BasicBlock) (m : BVMap) (Index : MapIndex) : Option Bool := do
  let mv ← m.TheMap Index
  let v ← Index.2
  match v with
  | .Instruction I => pure (getParent I == Index.1 && mv.Components.length == 0)
  | _ => pure false

end BVMap

/-- The data members of `OSRAPass::OSR`. -/
structure OSR where
  Base : Nat
  Factor : Nat
  BV : BVPointer
  deriving DecidableEq, Repr

namespace OSR

/-- The constructor `OSR(const BoundedValue *Value)`. -/
def ofBoundedValue (Value : BVPointer) : OSR := { Base := 0, Factor := 1, BV := Value }

/-- The constructor `OSR()`. -/
def mkDefault : OSR := { Base := 0, Factor := 1, BV := .null }

/-- The method `OSR::constant`; reading through a null or dangling pointer
aborts. -/
def constant (m : BVMap) (o : OSR) : Option Nat := do
  let bv ← m.deref o.BV
  bv.constant

/-- The method `OSR::setBoundedValue`. -/
def setBoundedValue (o : OSR) (NewBV : BVPointer) : OSR := { o with BV := NewBV }

/-- The method `OSR::boundedValue`, with its assertion. -/
def boundedValue (o : OSR) : Option BVPointer :=
  if o.BV != .null then some o.BV else none

/-- The method `OSR::isConstant`, with its assertion. The source has a second
`return` statement after the first one; control never reaches it. -/
def isConstant (m : BVMap) (o : OSR) : Option Bool :=
  if o.BV != .null then do
    let bv ← m.deref o.BV
    pure bv.isConstant
  else
    none

/-- The method `OSR::factor`. -/
def factor (o : OSR) : Nat := o.Factor

end OSR

/-- The value `Base + Factor * x` modulo `2^64` that an OSR denotes for the
value `x` of its bounded value. -/
def OSR.denotes (o : OSR) (x : Nat) : Nat := (o.Base + o.Factor * x) % 2 ^ 64

/-- The data members of `OSRAPass` that hold the state of the analysis.
Instructions and loads are keys by their numbers. -/
structure OSRAPass where
  OSRs : StdMap LLVMValue OSR
  BVs : BVMap
  Constraints : StdMap Nat (List BoundedValue)
  LoadReachers : StdMap Nat (List (Nat × OSR))
  BlockBlackList : List BasicBlock
  Subscriptions : StdMap Nat (List Nat)

namespace OSRAPass

/-- The method `getOSR` on a non-null value: the pointer it returns, given by
the OSR it points to, and the state it leaves. -/
def getOSR (s : OSRAPass) (V : LLVMValue) : Option OSR × OSRAPass :=
  match V with
  | .Instruction _ =>
    match s.OSRs V with
    | none => (none, s)
    | some It => (some It, s)
  | _ => (none, s)

/-- The method `releaseMemory`. -/
def releaseMemory (s : OSRAPass) : OSRAPass :=
  { s with OSRs := freeContainer s.OSRs, BVs := s.BVs.clear }

/-- The method `switchBlock`: the OSR it returns and the state it leaves. -/
def switchBlock (recompute : BasicBlock → MapValue → BoundedValue) (s : OSRAPass)
    (Base : OSR) (BB : BasicBlock) : Option (OSR × OSRAPass) := do
  let p ← Base.boundedValue
  let bv ← s.BVs.deref p
  let (r, m2) ← s.BVs.get recompute BB bv.value
  pure (Base.setBoundedValue r, { s with BVs := m2 })

end OSRAPass

/-- The classes of the LLVM hierarchy a template argument can name. -/
inductive LLVMClass where
  | Value
  | User
  | Constant
  | ConstantInt
  | Instruction
  | Argument
  deriving DecidableEq, Repr

/-- The test `llvm::isa<C>(V)` on a non-null value, which is also the success
of `llvm::dyn_cast<C>(V)`: integer constants are constants, constants and
instructions are users, and everything is a value. -/
def LLVMClass.isa : LLVMClass → LLVMValue → Bool
  | .Value, _ => true
  | .User, .ConstantInt _ _ => true
  | .User, .Instruction _ => true
  | .Constant, .ConstantInt _ _ => true
  | .ConstantInt, .ConstantInt _ _ => true
  | .Instruction, .Instruction _ => true
  | .Argument, .Argument _ => true
  | _, _ => false

/-- An `llvm::User`, given by the list of its operands. -/
structure User where
  Operands : List LLVMValue
  deriving DecidableEq, Repr

/-- The template `findOperand<T, I, Head, Tail...>`: the list holds the types
`Head, Tail...`, the tuple `Result` is a list of pointers, null being `none`.
The function returns its result and the tuple it leaves. -/
def findOperand : List LLVMClass → Nat → LLVMValue → List (Option LLVMValue) →
    Bool × List (Option LLVMValue)
  | [], _, _, Result => (false, Result)
  | Head :: Tail, I, Op, Result =>
    if Head.isa Op then
      (true, Result.set I (some Op))
    else
      findOperand Tail (I + 1) Op Result

/-- The loop of `operandsByType` over the operands that remain. -/
def operandsByTypeLoop (T : List LLVMClass) : List LLVMValue → List (Option LLVMValue) →
    List (Option LLVMValue)
  | [], Result => Result
  | Op :: Rest, Result =>
    match findOperand T 0 Op Result with
    | (false, _) => List.replicate T.length none
    | (true, Result2) => operandsByTypeLoop T Rest Result2

/-- The template `operandsByType<T...>`, with its assertion. The tuple starts
with every element null. -/
def operandsByType (T : List LLVMClass) (V : User) : Option (List (Option LLVMValue)) :=
  let Result : List (Option LLVMValue) := List.replicate T.length none
  let OpCount := V.Operands.length
  if OpCount == T.length then
    some (operandsByTypeLoop T V.Operands Result)
  else
    none

/-- The enumeration `VisitAction`. -/
inductive VisitAction where
  | Continue
  | NoSuccessors
  | ExhaustQueueAndStop
  | StopNow
  deriving DecidableEq, Repr

/-- What `visitSuccessors` reads of the function it walks: the successors of
every block, in order, and the number of instructions of every block. The
function is not modified during the visit. -/
structure CFG where
  successors : BasicBlock → List BasicBlock
  size : BasicBlock → Nat

/-- An instruction of a function, by its block and its position in it. -/
structure InstructionPosition where
  Parent : BasicBlock
  Position : Nat
  deriving DecidableEq, Repr

/-- A `BasicBlockRange`: the instructions of the block `Parent` from the
position `Begin` up to the position `End`, which is excluded. -/
structure BasicBlockRange where
  Parent : BasicBlock
  Begin : Nat
  End : Nat
  deriving DecidableEq, Repr

/-- The expression `Range.begin()->getParent()`: the iterator can only be
dereferenced when the range is not empty. -/
def BasicBlockRange.beginParent (Range : BasicBlockRange) : Option BasicBlock :=
  if Range.Begin < Range.End then some Range.Parent else none

/-- The local variables of `visitSuccessors` at the head of its loop, and the
state of the visitor, which may be any stateful function object. -/
structure VisitState (σ : Type) where
  Visited : List BasicBlock
  Queue : List BasicBlockRange
  ExhaustOnly : Bool
  State : σ

/-- How a run of `visitSuccessors` ends: it returns or it aborts. In both
cases `Calls` lists the invocations of the visitor, in order, each with the
range it was given and the action it returned. -/
inductive VisitEnd (σ : Type) where
  | returned (Calls : List (BasicBlockRange × VisitAction)) (State : σ)
  | aborted (Calls : List (BasicBlockRange × VisitAction))

/-- One more invocation in front of those of the rest of a run. -/
def VisitEnd.cons {σ : Type} (Call : BasicBlockRange × VisitAction) : VisitEnd σ → VisitEnd σ
  | .returned Calls State => .returned (Call :: Calls) State
  | .aborted Calls => .aborted (Call :: Calls)

/-- The `for` loop over the successors in the case `Continue`: the sets
`Visited` and `Queue` it leaves. -/
def enqueueSuccessors (cfg : CFG) : List BasicBlock → List BasicBlock →
    List BasicBlockRange → List BasicBlock × List BasicBlockRange
  | [], Visited, Queue => (Visited, Queue)
  | Successor :: Rest, Visited, Queue =>
    if !Visited.contains Successor then
      enqueueSuccessors cfg Rest (Successor :: Visited)
        (Queue ++ [{ Parent := Successor, Begin := 0, End := cfg.size Successor }])
    else
      enqueueSuccessors cfg Rest Visited Queue

/-- The `while` loop of `visitSuccessors`. The first argument bounds the
number of iterations: the result is `none` when the bound is reached with
ranges still in the queue. -/
def visitLoop {σ : Type} (cfg : CFG) (Visitor : σ → BasicBlockRange → VisitAction × σ) :
    Nat → VisitState σ → Option (VisitEnd σ)
  | fuel, st =>
    match st.Queue with
    | [] => some (.returned [] st.State)
    | Range :: Rest =>
      match fuel with
      | 0 => none
      | n + 1 =>
        match Visitor st.State Range with
        | (.Continue, s2) =>
          if !st.ExhaustOnly then
            match Range.beginParent with
            | none => some (.aborted [(Range, .Continue)])
            | some BB =>
              let r := enqueueSuccessors cfg (cfg.successors BB) st.Visited Rest
              (visitLoop cfg Visitor n
                { Visited := r.1, Queue := r.2, ExhaustOnly := st.ExhaustOnly, State := s2 }).map
                (VisitEnd.cons (Range, .Continue))
          else
            (visitLoop cfg Visitor n
              { Visited := st.Visited, Queue := Rest, ExhaustOnly := st.ExhaustOnly,
                State := s2 }).map
              (VisitEnd.cons (Range, .Continue))
        | (.NoSuccessors, s2) =>
          (visitLoop cfg Visitor n
            { Visited := st.Visited, Queue := Rest, ExhaustOnly := st.ExhaustOnly,
              State := s2 }).map
            (VisitEnd.cons (Range, .NoSuccessors))
        | (.ExhaustQueueAndStop, s2) =>
          (visitLoop cfg Visitor n
            { Visited := st.Visited, Queue := Rest, ExhaustOnly := true, State := s2 }).map
            (VisitEnd.cons (Range, .ExhaustQueueAndStop))
        | (.StopNow, s2) => some (.returned [(Range, .StopNow)] s2)

/-- The function `visitSuccessors` on a set of blocks to ignore, from an
instruction of the function. -/
def visitSuccessors {σ : Type} (cfg : CFG) (I : InstructionPosition)
    (Ignore : List BasicBlock) (Visitor : σ → BasicBlockRange → VisitAction × σ)
    (fuel : Nat) (State : σ) : Option (VisitEnd σ) :=
  visitLoop cfg Visitor fuel
    { Visited := Ignore,
      Queue := [{ Parent := I.Parent, Begin := I.Position + 1, End := cfg.size I.Parent }],
      ExhaustOnly := false, State := State }

/-- A negated signed bounded value with both bounds at the signed extremes. -/
def negatedSignedFull : BoundedValue :=
  { Value := some (.Instruction 0), LowerBound := INT64_MIN, UpperBound := INT64_MAX,
    Sign := .Signed, Bottom := false, Negated := true }

/-- The constructor `BVMap()`: a map without entries. -/
def BVMap.mkDefault : BVMap := { TheMap := StdMap.empty, BBMap := StdMap.empty }

/-- An OSR of base three and factor zero over the constant five. -/
def threePlusZeroTimesFive : OSR :=
  { Base := 3, Factor := 0, BV := .outside constantFive }

/-- A state of the pass in which the instruction eight is subscribed to the
load seven, has a constraint and reaches the load, and nothing else is
stored. -/
def subscribedPass : OSRAPass :=
  { OSRs := StdMap.empty, BVs := BVMap.mkDefault,
    Constraints := StdMap.assign StdMap.empty 8 [constantFive],
    LoadReachers := StdMap.assign StdMap.empty 7 [(8, OSR.mkDefault)],
    BlockBlackList := [],
    Subscriptions := StdMap.assign StdMap.empty 7 [8] }

/-- A user whose two operands are the 64-bit integer constants one and two. -/
def twoConstants : User :=
  { Operands := [.ConstantInt 64 1, .ConstantInt 64 2] }

/-- A function in which every block has one instruction and falls through to
the next block. -/
def straightLine : CFG :=
  { successors := fun BB => [BB + 1], size := fun _ => 1 }

/-- A visitor without state that answers `ExhaustQueueAndStop` on every
range. -/
def exhaustingVisitor : Unit → BasicBlockRange → VisitAction × Unit :=
  fun _ _ => (.ExhaustQueueAndStop, ())

/-- The head of the loop of `visitSuccessors` with the blocks zero and one
pending in the queue. -/
def twoPending : VisitState Unit :=
  { Visited := [0, 1],
    Queue := [{ Parent := 0, Begin := 0, End := 1 }, { Parent := 1, Begin := 0, End := 1 }],
    ExhaustOnly := false, State := () }

/-- The method `BoundedValue::size`, with its assertion; the last statement is
unreachable. -/
def BoundedValue.size (b : BoundedValue) : Option Nat :=
  if b.Negated && b.isConstant then
    none
  else if !b.Negated then
    some (u64sub b.UpperBound b.LowerBound)
  else do
    let le ← b.lowerExtreme
    if b.LowerBound == le then do
      let ue ← b.upperExtreme
      pure (u64sub ue (u64add b.UpperBound 1))
    else do
      let ue ← b.upperExtreme
      if b.UpperBound == ue then do
        let le2 ← b.lowerExtreme
        pure (u64sub (u64sub b.LowerBound 1) le2)
      else
        none

/-- The method `OSR::apply`. The method `moveTo` it calls is declared in
`osra.h` and defined outside of it: it is the parameter `moveTo`, applied to
the target, the value, the offset and the multiplier (the data layout is part
of the parameter), and it may abort. -/
def OSR.apply (moveTo : BoundedValue → Option LLVMValue → Nat → Nat → Option BoundedValue)
    (o : OSR) (Target : BoundedValue) (V : Option LLVMValue) : Option BoundedValue :=
  if Target.isBottom then
    some Target
  else do
    let t ← Target.isTop
    if t || !Target.hasSignedness then
      pure Target
    else
      moveTo Target V o.Base o.Factor

/-- The method `nextValidPred`. The predecessors of the block are the list
`Preds`; an iterator is a position in that list, the end iterator being its
length. The iterator the method leaves is returned; dereferencing an iterator
that is not on a predecessor aborts. -/
def nextValidPred (BlockBlackList Preds : List BasicBlock) (It End : Nat) : Option Nat :=
  if It != End then
    if h : It < Preds.length then
      if BlockBlackList.contains (Preds.get ⟨It, h⟩) then
        nextValidPred BlockBlackList Preds (It + 1) End
      else
        some It
    else
      none
  else
    some It
termination_by Preds.length - It

/-- The method `getValidPred`; the parameter gives the predecessors of every
block, in the order of `pred_begin`. -/
def OSRAPass.getValidPred (s : OSRAPass) (predecessors : BasicBlock → List BasicBlock)
    (BB : BasicBlock) : Option Nat :=
  nextValidPred s.BlockBlackList (predecessors BB) 0 (predecessors BB).length

/-- The classes of instructions a template argument can name. -/
inductive InstructionClass where
  | Instruction
  | BinaryOperator
  | CmpInst
  | ICmpInst
  | StoreInst
  | LoadInst
  | CallInst
  deriving DecidableEq, Repr

/-- The test `llvm::isa<I>` on an instruction whose own class is the second
argument: every instruction is an `Instruction`, and an `ICmpInst` is a
`CmpInst`. -/
def InstructionClass.isa (I Class : InstructionClass) : Bool :=
  I == .Instruction || I == Class || (I == .CmpInst && Class == .ICmpInst)

/-- What `isa_with_op` reads and writes of an `llvm::Instruction`: its class,
its operands in order, and the answer of `isCommutative`. -/
structure LLVMInstruction where
  Class : InstructionClass
  Operands : List LLVMValue
  Commutative : Bool
  deriving DecidableEq, Repr

namespace LLVMInstruction

/-- The method `getNumOperands`. -/
def getNumOperands (Inst : LLVMInstruction) : Nat := Inst.Operands.length

/-- The method `getOperand`, which aborts on a position without operand. -/
def getOperand (Inst : LLVMInstruction) (i : Nat) : Option LLVMValue := Inst.Operands.get? i

/-- The method `swapOperands` of a two-operand instruction. -/
def swapOperands (Inst : LLVMInstruction) : LLVMInstruction :=
  match Inst.Operands with
  | [Op0, Op1] => { Inst with Operands := [Op1, Op0] }
  | _ => Inst

end LLVMInstruction

/-- The template `isa_with_op<I, F, S>` on a non-null instruction. The result
is `none` when an assertion fails; otherwise it holds the pointer returned
(`none` for null, else the instruction it points to) and the instruction as
the call leaves it. -/
def isa_with_op (I : InstructionClass) (F S : LLVMClass) (Inst : LLVMInstruction) :
    Option (Option LLVMInstruction × LLVMInstruction) :=
  if I.isa Inst.Class then
    let Casted := Inst
    if Casted.getNumOperands == 2 then do
      let Op0 ← Casted.getOperand 0
      let Op1 ← Casted.getOperand 1
      if F.isa Op0 && S.isa Op1 then
        pure (some Casted, Casted)
      else if F.isa Op0 && S.isa Op1 then
        if Casted.Commutative then
          pure (some Casted.swapOperands, Casted.swapOperands)
        else
          none
      else
        pure (none, Inst)
    else
      none
  else
    some (none, Inst)

/-- The range of all the instructions of a block, as `visitSuccessors` pushes
it for a successor. -/
def wholeBlock (cfg : CFG) (BB : BasicBlock) : BasicBlockRange :=
  { Parent := BB, Begin := 0, End := cfg.size BB }

/-- The invocations of the visitor during a run of `visitSuccessors`. -/
def VisitEnd.Calls {σ : Type} : VisitEnd σ → List (BasicBlockRange × VisitAction)
  | .returned Calls _ => Calls
  | .aborted Calls => Calls

/-- The blocks of a function, given by the list `Blocks`, that are outside of
a set of blocks, each counted once. -/
def blocksOutside (Blocks Visited : List BasicBlock) : List BasicBlock :=
  Blocks.dedup.filter (fun BB => !Visited.contains BB)

/-- A commutative binary operator whose operands are an integer constant and
an instruction, in that order. -/
def addConstantInstruction : LLVMInstruction :=
  { Class := .BinaryOperator, Operands := [.ConstantInt 64 1, .Instruction 3],
    Commutative := true }

/-- A state of the pass in which the block one is blacklisted and nothing is
stored. -/
def blacklistingPass : OSRAPass :=
  { OSRs := StdMap.empty, BVs := BVMap.mkDefault, Constraints := StdMap.empty,
    LoadReachers := StdMap.empty, BlockBlackList := [1], Subscriptions := StdMap.empty }

/-- A function of two blocks of two instructions each that jump to each
other. -/
def loopOfTwo : CFG :=
  { successors := fun BB => if BB = 0 then [1] else if BB = 1 then [0] else [],
    size := fun _ => 2 }

/-- A visitor without state that answers `Continue` on every range. -/
def continuingVisitor : Unit → BasicBlockRange → VisitAction × Unit :=
  fun _ _ => (.Continue, ())

/-- Whether a run of `visitSuccessors` ended by returning. -/
def VisitEnd.isReturned {σ : Type} : VisitEnd σ → Bool
  | .returned _ _ => true
  | .aborted _ => false

/-- The OSR the constructor builds on a pointer to the bounded value of the
default constructor, which is over the null value. -/
def overDefaultValue : OSR := OSR.ofBoundedValue (.outside BoundedValue.mkDefault)

/-- The extremes of a sign differ, so a value with both bounds at the extremes
is never a constant. -/
theorem extremes_ne (b : BoundedValue) (lo hi : Nat)
    (hlo : b.lowerExtreme = some lo) (hhi : b.upperExtreme = some hi) : lo ≠ hi := by
  cases b with
  | mk V L U S B N =>
    cases S <;>
      simp [BoundedValue.lowerExtreme, BoundedValue.upperExtreme, UINT64_MIN, UINT64_MAX,
        INT64_MIN, INT64_MAX] at hlo hhi <;> omega

/-- C1: for every bounded value `isTop` returns a result, and it returns true
exactly when the sign is not `Any` and the value is uninitialized or
non-negated with both bounds at the extremes; the conjunct `!isConstant()` of
the code never changes that. -/
theorem isTop_iff_specTop (b : BoundedValue) :
    (∃ r, b.isTop = some r) ∧ (b.isTop = some true ↔ specTop b) := by
  cases b with
  | mk V L U S B N =>
    cases S <;> cases B <;> cases N <;>
      simp [BoundedValue.isTop, specTop, BoundedValue.isConstant, BoundedValue.isUninitialized,
        BoundedValue.lowerExtreme, BoundedValue.upperExtreme, UINT64_MIN, UINT64_MAX,
        INT64_MIN, INT64_MAX] <;>
      (try split_ifs) <;> (try simp_all) <;> (try omega)

/-- C2, as stated, fails: on the negated unsigned value over the whole range
every assertion of `actualBoundaries` passes and the pair returned is the
whole range again, although the complement is empty; zero lies in both. -/
theorem actualBoundaries_negatedFullRange :
    negatedFullRange.Bottom = false ∧ negatedFullRange.Negated = true ∧
    negatedFullRange.hasSignedness = true ∧
    negatedFullRange.lowerExtreme = some negatedFullRange.LowerBound ∧
    negatedFullRange.upperExtreme = some negatedFullRange.UpperBound ∧
    leUnder negatedFullRange.Sign negatedFullRange.LowerBound negatedFullRange.UpperBound ∧
    negatedFullRange.actualBoundaries = some (0, 2 ^ 64 - 1) ∧
    inFullRange negatedFullRange 0 ∧
    ¬ (inInterval negatedFullRange.Sign 0 (2 ^ 64 - 1) 0 ↔
        ¬ inInterval negatedFullRange.Sign negatedFullRange.LowerBound
            negatedFullRange.UpperBound 0) := by
  refine ⟨rfl, rfl, rfl, ?_, ?_, ?_, ?_, ?_, ?_⟩
  · simp [negatedFullRange, BoundedValue.lowerExtreme, UINT64_MIN]
  · simp [negatedFullRange, BoundedValue.upperExtreme, UINT64_MAX]
  · simp [negatedFullRange, leUnder]
  · simp [negatedFullRange, BoundedValue.actualBoundaries, BoundedValue.isConstant,
      BoundedValue.isUninitialized, BoundedValue.lowerExtreme, BoundedValue.upperExtreme,
      BoundedValue.isSigned, ConstantInt_get, u64add, UINT64_MIN, UINT64_MAX]
  · refine ⟨by norm_num, 0, 2 ^ 64 - 1, ?_, ?_, ?_⟩
    · simp [negatedFullRange, BoundedValue.lowerExtreme, UINT64_MIN]
    · simp [negatedFullRange, BoundedValue.upperExtreme, UINT64_MAX]
    · simp [negatedFullRange, inInterval, leUnder]
  · simp [negatedFullRange, inInterval, leUnder]

/-- C2, amended: for a non-bottom negated bounded value of concrete sign
with ordered bounds inside the range of its sign, limited, not a constant (so
that the assertion passes) and not covering the whole range,
`actualBoundaries` returns a pair, and a value of the full range lies between
the two returned bounds exactly when it lies outside the stored interval. -/
theorem actualBoundaries_complement (b : BoundedValue) (lo hi : Nat)
    (hB : b.Bottom = false) (hN : b.Negated = true)
    (hL : b.LowerBound < 2 ^ 64) (hU : b.UpperBound < 2 ^ 64)
    (hlo : b.lowerExtreme = some lo) (hhi : b.upperExtreme = some hi)
    (h1 : leUnder b.Sign lo b.LowerBound)
    (h2 : leUnder b.Sign b.LowerBound b.UpperBound)
    (h3 : leUnder b.Sign b.UpperBound hi)
    (hlim : b.LowerBound = lo ∨ b.UpperBound = hi)
    (hconst : b.isConstant = false)
    (hfull : ¬ (b.LowerBound = lo ∧ b.UpperBound = hi)) :
    ∃ lo2 hi2, b.actualBoundaries = some (lo2, hi2) ∧
      ∀ x, inFullRange b x →
        (inInterval b.Sign lo2 hi2 x ↔ ¬ inInterval b.Sign b.LowerBound b.UpperBound x) := by
  cases b with
  | mk V L U S B N =>
    simp only at hB hN hL hU h1 h2 h3 hlim hfull
    subst hB hN
    cases S <;>
      simp [BoundedValue.lowerExtreme, BoundedValue.upperExtreme, UINT64_MIN, UINT64_MAX,
        INT64_MIN, INT64_MAX] at hlo hhi
    all_goals
      subst hlo hhi
      simp only [BoundedValue.isConstant, BoundedValue.isUninitialized] at hconst
      simp at hconst
      simp only [leUnder, toSigned] at h1 h2 h3
      simp at h1 h2 h3
      simp only [BoundedValue.actualBoundaries, BoundedValue.isConstant,
            BoundedValue.isUninitialized, BoundedValue.lowerExtreme,
            BoundedValue.upperExtreme, BoundedValue.isSigned, UINT64_MIN, UINT64_MAX,
            INT64_MIN, INT64_MAX, inFullRange, inInterval, leUnder, toSigned, ConstantInt_get,
            u64add, u64sub]
      simp [hconst]
      rcases hlim with hl | hu
      · subst hl
        simp only [↓reduceIte]
        refine ⟨_, _, rfl, ?_⟩
        intro x
        omega
      · have hne := fun h => hfull ⟨h, hu⟩
        subst hu
        rw [if_neg hne]
        simp only [↓reduceIte]
        refine ⟨_, _, rfl, ?_⟩
        intro x
        omega

/-- The amended C2 at the negated unsigned interval from zero to five. -/
theorem actualBoundaries_complement_witness :
    ∃ lo2 hi2, aboveFive.actualBoundaries = some (lo2, hi2) ∧
      ∀ x, inFullRange aboveFive x →
        (inInterval aboveFive.Sign lo2 hi2 x ↔
          ¬ inInterval aboveFive.Sign aboveFive.LowerBound aboveFive.UpperBound x) :=
  actualBoundaries_complement aboveFive 0 (2 ^ 64 - 1) rfl rfl
    (by simp [aboveFive]) (by simp [aboveFive])
    (by simp [aboveFive, BoundedValue.lowerExtreme, UINT64_MIN])
    (by simp [aboveFive, BoundedValue.upperExtreme, UINT64_MAX])
    (by simp [aboveFive, leUnder]) (by simp [aboveFive, leUnder])
    (by simp [aboveFive, leUnder]) (Or.inl rfl)
    (by simp [aboveFive, BoundedValue.isConstant, BoundedValue.isUninitialized])
    (by simp [aboveFive])

/-- C3, as stated, fails: the negated constant `createNE(v, 0, false)` has its
lower bound at the lower extreme, and `isSingleRange` returns false on it. -/
theorem isSingleRange_neZeroUnsigned :
    BoundedValue.createNE (fun _ => .AnySignedness) (.Instruction 0) 0 false
      = some neZeroUnsigned ∧
    neZeroUnsigned.Negated = true ∧ neZeroUnsigned.hasSignedness = true ∧
    neZeroUnsigned.lowerExtreme = some neZeroUnsigned.LowerBound ∧
    neZeroUnsigned.isSingleRange = some false := by
  refine ⟨?_, rfl, rfl, ?_, ?_⟩
  · simp [BoundedValue.createNE, BoundedValue.ofValue, LLVMValue.isConstantInt,
      BoundedValue.setSignedness, neZeroUnsigned]
  · simp [neZeroUnsigned, BoundedValue.lowerExtreme, UINT64_MIN]
  · simp [neZeroUnsigned, BoundedValue.isSingleRange, BoundedValue.isConstant,
      BoundedValue.isUninitialized]

/-- C3, amended: on a negated bounded value of concrete sign `isSingleRange`
returns true exactly when the value is not a constant and one of its bounds is
at the extreme of its sign; on a non-negated bounded value it returns true. -/
theorem isSingleRange_iff (b : BoundedValue) :
    (b.Negated = false → b.isSingleRange = some true) ∧
    (b.Negated = true → b.hasSignedness = true →
      (∃ r, b.isSingleRange = some r) ∧
      (b.isSingleRange = some true ↔
        (b.isConstant = false ∧
          (b.lowerExtreme = some b.LowerBound ∨ b.upperExtreme = some b.UpperBound)))) := by
  cases b with
  | mk V L U S B N =>
    cases S <;> cases B <;> cases N <;>
      simp [BoundedValue.isSingleRange, BoundedValue.hasSignedness, BoundedValue.isConstant,
        BoundedValue.isUninitialized, BoundedValue.lowerExtreme, BoundedValue.upperExtreme,
        UINT64_MIN, UINT64_MAX, INT64_MIN, INT64_MAX] <;>
      (try split_ifs) <;> (try simp_all) <;> (try omega)

/-- The amended C3 at the negated unsigned interval from zero to five. -/
theorem isSingleRange_iff_witness :
    (∃ r, aboveFive.isSingleRange = some r) ∧
    (aboveFive.isSingleRange = some true ↔
      (aboveFive.isConstant = false ∧
        (aboveFive.lowerExtreme = some aboveFive.LowerBound ∨
          aboveFive.upperExtreme = some aboveFive.UpperBound))) :=
  (isSingleRange_iff aboveFive).2 rfl rfl

/-- C4: on a non-bottom bounded value of concrete sign `actualBoundaries`
passes all its assertions, and so returns a pair, exactly when
`isSingleRange` returns true. -/
theorem actualBoundaries_isSome_iff (b : BoundedValue)
    (hB : b.Bottom = false) (hS : b.hasSignedness = true) :
    b.actualBoundaries.isSome = true ↔ b.isSingleRange = some true := by
  cases b with
  | mk V L U S B N =>
    simp only at hB
    subst hB
    cases S <;> cases N <;>
      simp [BoundedValue.hasSignedness] at hS <;>
      simp [BoundedValue.actualBoundaries, BoundedValue.isSingleRange,
        BoundedValue.isConstant, BoundedValue.isUninitialized, BoundedValue.lowerExtreme,
        BoundedValue.upperExtreme, BoundedValue.lower, BoundedValue.upper,
        BoundedValue.isSigned, UINT64_MIN, UINT64_MAX, INT64_MIN, INT64_MAX] <;>
      (try split_ifs) <;> (try simp_all)

/-- C4 at the negated unsigned interval from zero to five, a single range. -/
theorem actualBoundaries_isSome_iff_witness :
    aboveFive.actualBoundaries.isSome = true ↔ aboveFive.isSingleRange = some true :=
  actualBoundaries_isSome_iff aboveFive rfl rfl

/-- C5: the constructor from a value always returns a bounded value over that
value. For an integer constant, whose limited value fits 64 bits, the result
is the constant with that value, of sign `Any`, neither negated, bottom nor
top; for every other value it is uninitialized, top and not a constant. -/
theorem ofValue_intrinsic (V : LLVMValue) :
    ∃ b, BoundedValue.ofValue V = some b ∧ b.Value = some V ∧
      (V.isConstantInt = true →
        ∃ k, getLimitedValue V = some k ∧ k < 2 ^ 64 ∧
          b.isConstant = true ∧ b.constant = some k ∧ b.Sign = .AnySignedness ∧
          b.Negated = false ∧ b.isBottom = false ∧ b.isTop = some false) ∧
      (V.isConstantInt = false →
        b.Sign = .UnknownSignedness ∧ b.isTop = some true ∧ b.isConstant = false) := by
  cases V with
  | ConstantInt w v =>
    refine ⟨_, rfl, rfl, ?_, ?_⟩
    · intro _
      refine ⟨min v UINT64_MAX, rfl, ?_, ?_⟩
      · have : min v UINT64_MAX ≤ UINT64_MAX := Nat.min_le_right _ _
        simp only [UINT64_MAX] at this ⊢
        omega
      · simp [BoundedValue.isConstant, BoundedValue.isUninitialized, BoundedValue.constant,
          BoundedValue.isBottom, BoundedValue.isTop]
    · intro h
      simp [LLVMValue.isConstantInt] at h
  | Instruction i =>
    refine ⟨_, rfl, rfl, ?_, ?_⟩
    · intro h
      simp [LLVMValue.isConstantInt] at h
    · intro _
      simp [BoundedValue.isConstant, BoundedValue.isUninitialized, BoundedValue.isTop]
  | Argument i =>
    refine ⟨_, rfl, rfl, ?_, ?_⟩
    · intro h
      simp [LLVMValue.isConstantInt] at h
    · intro _
      simp [BoundedValue.isConstant, BoundedValue.isUninitialized, BoundedValue.isTop]

/-- C5 at the 32-bit integer constant seven. -/
theorem ofValue_intrinsic_witness :
    ∃ b, BoundedValue.ofValue (.ConstantInt 32 7) = some b ∧
      b.Value = some (.ConstantInt 32 7) ∧
      (LLVMValue.isConstantInt (.ConstantInt 32 7) = true →
        ∃ k, getLimitedValue (.ConstantInt 32 7) = some k ∧ k < 2 ^ 64 ∧
          b.isConstant = true ∧ b.constant = some k ∧ b.Sign = .AnySignedness ∧
          b.Negated = false ∧ b.isBottom = false ∧ b.isTop = some false) ∧
      (LLVMValue.isConstantInt (.ConstantInt 32 7) = false →
        b.Sign = .UnknownSignedness ∧ b.isTop = some true ∧ b.isConstant = false) :=
  ofValue_intrinsic (.ConstantInt 32 7)

/-- The constructor from a value that is not an integer constant. -/
theorem ofValue_of_not_constant (v : LLVMValue) (hv : v.isConstantInt = false) :
    BoundedValue.ofValue v =
      some { Value := some v, LowerBound := 0, UpperBound := 0,
             Sign := .UnknownSignedness, Bottom := false, Negated := false } := by
  simp [BoundedValue.ofValue, hv]

/-- C6: for a value that is not an integer constant, a 64-bit `k` and a
signedness `s`, each of the four factories returns a non-bottom bounded value
over the value with signedness `s` and ordered bounds: from `k` to the upper
extreme for `createGE`, from the lower extreme to `k` for `createLE`, from `k`
to `k` for `createEQ` and `createNE`; only the last one is negated. -/
theorem create_bounds (onAny : Bool → Signedness) (v : LLVMValue) (k : Nat) (s : Bool)
    (hv : v.isConstantInt = false) (hk : k < 2 ^ 64) :
    (∃ b, BoundedValue.createGE onAny v k s = some b ∧ b.Value = some v ∧
      b.Sign = Signedness.ofIsSigned s ∧ b.Bottom = false ∧ b.Negated = false ∧
      b.LowerBound = k ∧ b.upperExtreme = some b.UpperBound ∧
      leUnder b.Sign b.LowerBound b.UpperBound) ∧
    (∃ b, BoundedValue.createLE onAny v k s = some b ∧ b.Value = some v ∧
      b.Sign = Signedness.ofIsSigned s ∧ b.Bottom = false ∧ b.Negated = false ∧
      b.lowerExtreme = some b.LowerBound ∧ b.UpperBound = k ∧
      leUnder b.Sign b.LowerBound b.UpperBound) ∧
    (∃ b, BoundedValue.createEQ onAny v k s = some b ∧ b.Value = some v ∧
      b.Sign = Signedness.ofIsSigned s ∧ b.Bottom = false ∧ b.Negated = false ∧
      b.LowerBound = k ∧ b.UpperBound = k ∧
      leUnder b.Sign b.LowerBound b.UpperBound) ∧
    (∃ b, BoundedValue.createNE onAny v k s = some b ∧ b.Value = some v ∧
      b.Sign = Signedness.ofIsSigned s ∧ b.Bottom = false ∧ b.Negated = true ∧
      b.LowerBound = k ∧ b.UpperBound = k ∧
      leUnder b.Sign b.LowerBound b.UpperBound) := by
  have h := ofValue_of_not_constant v hv
  cases s <;>
    simp only [BoundedValue.createGE, BoundedValue.createLE, BoundedValue.createEQ,
      BoundedValue.createNE, h, BoundedValue.setSignedness, BoundedValue.upperExtreme,
      BoundedValue.lowerExtreme, Signedness.ofIsSigned, leUnder, toSigned, UINT64_MIN,
      UINT64_MAX, INT64_MIN, INT64_MAX, Option.bind_eq_bind, Option.some_bind,
      Option.pure_def, Option.some.injEq, exists_eq_left'] <;>
    (simp only [reduceIte, if_true, true_and, Bool.false_eq_true, reduceCtorEq]) <;>
    (try split_ifs) <;> (try omega)

/-- C6 at an instruction, the bound seven and a signed use. -/
theorem create_bounds_witness :
    ∃ b, BoundedValue.createGE (fun _ => .AnySignedness) (.Instruction 0) 7 true = some b ∧
      b.Value = some (.Instruction 0) ∧
      b.Sign = Signedness.ofIsSigned true ∧ b.Bottom = false ∧ b.Negated = false ∧
      b.LowerBound = 7 ∧ b.upperExtreme = some b.UpperBound ∧
      leUnder b.Sign b.LowerBound b.UpperBound :=
  (create_bounds (fun _ => .AnySignedness) (.Instruction 0) 7 true rfl (by norm_num)).1

/-- The constructor from a value never builds a bottom bounded value. -/
theorem ofValue_not_bottom (V : LLVMValue) (b : BoundedValue)
    (h : BoundedValue.ofValue V = some b) : b.Bottom = false := by
  cases V <;> simp [BoundedValue.ofValue, LLVMValue.isConstantInt, getLimitedValue] at h <;>
    subst h <;> rfl

/-- No constructor and no factory builds a bottom bounded value. -/
theorem build_not_bottom (onAny : Bool → Signedness) (f : Factory) (b : BoundedValue)
    (h : f.build onAny = some b) : b.Bottom = false := by
  cases f with
  | ofValue V => exact ofValue_not_bottom V b h
  | mkDefault =>
    simp [Factory.build] at h
    subst h
    rfl
  | createGE V k s =>
    simp only [Factory.build, BoundedValue.createGE, Option.bind_eq_bind,
      Option.bind_eq_some] at h
    obtain ⟨r, hr, ue, _, h⟩ := h
    have hb := ofValue_not_bottom V r hr
    simp at h
    subst h
    simpa [BoundedValue.setSignedness] using hb
  | createLE V k s =>
    simp only [Factory.build, BoundedValue.createLE, Option.bind_eq_bind,
      Option.bind_eq_some] at h
    obtain ⟨r, hr, le, _, h⟩ := h
    have hb := ofValue_not_bottom V r hr
    simp at h
    subst h
    simpa [BoundedValue.setSignedness] using hb
  | createEQ V k s =>
    simp only [Factory.build, BoundedValue.createEQ, Option.bind_eq_bind,
      Option.bind_eq_some] at h
    obtain ⟨r, hr, h⟩ := h
    have hb := ofValue_not_bottom V r hr
    simp at h
    subst h
    simpa [BoundedValue.setSignedness] using hb
  | createNE V k s =>
    simp only [Factory.build, BoundedValue.createNE, Option.bind_eq_bind,
      Option.bind_eq_some] at h
    obtain ⟨r, hr, h⟩ := h
    have hb := ofValue_not_bottom V r hr
    simp at h
    subst h
    simpa [BoundedValue.setSignedness] using hb
  | createConstant V k =>
    simp only [Factory.build, BoundedValue.createConstant, Option.bind_eq_bind,
      Option.bind_eq_some] at h
    obtain ⟨r, hr, h⟩ := h
    have hb := ofValue_not_bottom V r hr
    simp at h
    subst h
    simpa using hb

/-- The method `setTop` does not make a bounded value bottom. -/
theorem setTop_not_bottom (b r : BoundedValue) (hb : b.Bottom = false)
    (h : b.setTop = some r) : r.Bottom = false := by
  cases b with
  | mk V L U S B N =>
    simp only at hb
    subst hb
    cases S <;>
      simp [BoundedValue.setTop, BoundedValue.isUninitialized, BoundedValue.lowerExtreme,
        BoundedValue.upperExtreme] at h <;>
      subst h <;> rfl

/-- A sequence of mutators without `setBottom` does not make a bounded value
bottom. -/
theorem runMutators_not_bottom (ms : List Mutator) :
    ∀ b r : BoundedValue, b.Bottom = false → Mutator.setBottom ∉ ms →
      runMutators ms b = some r → r.Bottom = false := by
  induction ms with
  | nil =>
    intro b r hb _ h
    simp [runMutators] at h
    subst h
    exact hb
  | cons m ms ih =>
    intro b r hb hms h
    simp only [List.mem_cons, not_or] at hms
    simp only [runMutators, Option.bind_eq_some] at h
    obtain ⟨c, hc, h⟩ := h
    refine ih c r ?_ hms.2 h
    cases m with
    | flip =>
      simp [Mutator.run] at hc
      subst hc
      simpa [BoundedValue.flip] using hb
    | setBottom => exact absurd rfl hms.1
    | setTop => exact setTop_not_bottom b c hb hc

/-- The method `setBottom` on a bounded value that is not bottom returns a
bottom bounded value on which `isTop` answers as before. -/
theorem setBottom_isTop (b : BoundedValue) (hb : b.Bottom = false) :
    ∃ r, b.setBottom = some r ∧ r.isBottom = true ∧ r.isTop = b.isTop := by
  cases b with
  | mk V L U S B N =>
    simp only at hb
    subst hb
    refine ⟨_, rfl, rfl, ?_⟩
    cases S <;> cases N <;>
      simp [BoundedValue.isTop, BoundedValue.isConstant, BoundedValue.isUninitialized,
        BoundedValue.lowerExtreme, BoundedValue.upperExtreme, UINT64_MIN, UINT64_MAX,
        INT64_MIN, INT64_MAX] <;>
      (try split_ifs) <;> (try simp_all)

/-- C7, as stated, fails: the bounded value the constructor builds for an
instruction is top, `setBottom` is allowed on it, and the result is both
bottom and top. -/
theorem bottom_and_top :
    ((Factory.ofValue (.Instruction 0)).build (fun _ => .AnySignedness)).bind
        (runMutators [.setBottom]) = some uninitializedBottom ∧
    uninitializedBottom.isBottom = true ∧ uninitializedBottom.isTop = some true := by
  refine ⟨?_, rfl, ?_⟩
  · simp [Factory.build, BoundedValue.ofValue, LLVMValue.isConstantInt, runMutators,
      Mutator.run, BoundedValue.setBottom, uninitializedBottom]
  · simp [uninitializedBottom, BoundedValue.isTop, BoundedValue.isConstant,
      BoundedValue.isUninitialized]

/-- C7, amended: a bounded value obtained from a constructor or a factory by
a sequence of `flip` and `setTop` is not bottom, hence not both bottom and
top; `setBottom` is allowed on it, makes it bottom and leaves the answer of
`isTop` unchanged, because `isTop` does not look at the bottom flag. -/
theorem not_bottom_without_setBottom (onAny : Bool → Signedness) (f : Factory)
    (ms : List Mutator) (b : BoundedValue)
    (hb : (f.build onAny).bind (runMutators ms) = some b)
    (hms : Mutator.setBottom ∉ ms) :
    b.isBottom = false ∧ ¬ (b.isBottom = true ∧ b.isTop = some true) ∧
      ∃ r, b.setBottom = some r ∧ r.isBottom = true ∧ r.isTop = b.isTop := by
  simp only [Option.bind_eq_some] at hb
  obtain ⟨c, hc, hb⟩ := hb
  have h0 : b.Bottom = false :=
    runMutators_not_bottom ms c b (build_not_bottom onAny f c hc) hms hb
  refine ⟨h0, ?_, setBottom_isTop b h0⟩
  intro h
  simp [BoundedValue.isBottom, h0] at h

/-- The amended C7 at `createGE(v, 0, false)` followed by `flip` and
`setTop`. -/
theorem not_bottom_without_setBottom_witness :
    BoundedValue.isBottom
        { Value := some (.Instruction 0), LowerBound := 0, UpperBound := 2 ^ 64 - 1,
          Sign := .Unsigned, Bottom := false, Negated := false } = false ∧
      ¬ (BoundedValue.isBottom
            { Value := some (.Instruction 0), LowerBound := 0, UpperBound := 2 ^ 64 - 1,
              Sign := .Unsigned, Bottom := false, Negated := false } = true ∧
          BoundedValue.isTop
            { Value := some (.Instruction 0), LowerBound := 0, UpperBound := 2 ^ 64 - 1,
              Sign := .Unsigned, Bottom := false, Negated := false } = some true) ∧
      ∃ r, BoundedValue.setBottom
            { Value := some (.Instruction 0), LowerBound := 0, UpperBound := 2 ^ 64 - 1,
              Sign := .Unsigned, Bottom := false, Negated := false } = some r ∧
        r.isBottom = true ∧
        r.isTop = BoundedValue.isTop
            { Value := some (.Instruction 0), LowerBound := 0, UpperBound := 2 ^ 64 - 1,
              Sign := .Unsigned, Bottom := false, Negated := false } :=
  not_bottom_without_setBottom (fun _ => .AnySignedness)
    (.createGE (.Instruction 0) 0 false) [.flip, .setTop] _
    (by
      simp [Factory.build, BoundedValue.createGE, BoundedValue.ofValue,
        LLVMValue.isConstantInt, BoundedValue.setSignedness, BoundedValue.upperExtreme,
        runMutators, Mutator.run, BoundedValue.flip, BoundedValue.setTop,
        BoundedValue.isUninitialized, BoundedValue.lowerExtreme, UINT64_MIN, UINT64_MAX])
    (by decide)

/-- C8, as stated, fails: `createConstant(v, 5)` satisfies the invariant of
constants and `flip` turns it into a negated bounded value of sign `Any`. -/
theorem flip_breaks_constantInv :
    BoundedValue.createConstant (.Instruction 0) 5 = some constantFive ∧
    ConstantInv constantFive ∧
    constantFive.flip.Sign = .AnySignedness ∧ constantFive.flip.Negated = true ∧
    ¬ ConstantInv constantFive.flip := by
  refine ⟨?_, ?_, rfl, rfl, ?_⟩
  · simp [BoundedValue.createConstant, BoundedValue.ofValue, LLVMValue.isConstantInt,
      constantFive]
  · simp [ConstantInv, constantFive]
  · simp [ConstantInv, constantFive, BoundedValue.flip]

/-- C8, amended: the invariant of constants holds for the bounded values the
two constructors and `createConstant` build, and `setBottom` (where its
assertion allows it) and `setTop` preserve it; `flip` keeps the sign and both
bounds, so it preserves the equality of the bounds of a constant, and it
inverts the negation flag whatever the sign is. -/
theorem constantInv_preserved (V : LLVMValue) (k : Nat) (b : BoundedValue)
    (hinv : ConstantInv b) :
    (∃ r, BoundedValue.ofValue V = some r ∧ ConstantInv r) ∧
    ConstantInv BoundedValue.mkDefault ∧
    (∃ r, BoundedValue.createConstant V k = some r ∧ ConstantInv r) ∧
    (b.Bottom = false → ∃ r, b.setBottom = some r ∧ ConstantInv r) ∧
    (∃ r, b.setTop = some r ∧ ConstantInv r) ∧
    (b.flip.Sign = b.Sign ∧ b.flip.LowerBound = b.LowerBound ∧
      b.flip.UpperBound = b.UpperBound ∧ b.flip.Negated = !b.Negated ∧
      (b.flip.Sign = .AnySignedness → b.flip.LowerBound = b.flip.UpperBound)) := by
  refine ⟨?_, ?_, ?_, ?_, ?_, rfl, rfl, rfl, rfl, ?_⟩
  · cases V <;>
      simp [BoundedValue.ofValue, LLVMValue.isConstantInt, getLimitedValue, ConstantInv]
  · simp [ConstantInv, BoundedValue.mkDefault]
  · cases V <;>
      simp [BoundedValue.createConstant, BoundedValue.ofValue, LLVMValue.isConstantInt,
        getLimitedValue, ConstantInv]
  · intro hB
    refine ⟨{ b with Bottom := true }, ?_, ?_⟩
    · simp [BoundedValue.setBottom, hB]
    · exact hinv
  · cases b with
    | mk W L U S B N =>
      cases S <;>
        simp [BoundedValue.setTop, BoundedValue.isUninitialized, BoundedValue.lowerExtreme,
          BoundedValue.upperExtreme, ConstantInv]
  · intro h
    exact (hinv h).1

/-- The amended C8 at the constant `createConstant(v, 5)` builds. -/
theorem constantInv_preserved_witness :
    (∃ r, BoundedValue.ofValue (.ConstantInt 64 3) = some r ∧ ConstantInv r) ∧
    ConstantInv BoundedValue.mkDefault ∧
    (∃ r, BoundedValue.createConstant (.ConstantInt 64 3) 9 = some r ∧ ConstantInv r) ∧
    (constantFive.Bottom = false → ∃ r, constantFive.setBottom = some r ∧ ConstantInv r) ∧
    (∃ r, constantFive.setTop = some r ∧ ConstantInv r) ∧
    (constantFive.flip.Sign = constantFive.Sign ∧
      constantFive.flip.LowerBound = constantFive.LowerBound ∧
      constantFive.flip.UpperBound = constantFive.UpperBound ∧
      constantFive.flip.Negated = !constantFive.Negated ∧
      (constantFive.flip.Sign = .AnySignedness →
        constantFive.flip.LowerBound = constantFive.flip.UpperBound)) :=
  constantInv_preserved (.ConstantInt 64 3) 9 constantFive (by simp [ConstantInv, constantFive])

/-- C9: when one of two bounded values is bottom, they compare equal exactly
when both are bottom, whatever their other fields are; two bounded values that
are not bottom compare equal exactly when their value, bounds, sign and
negation flag agree. The operator of difference is the negation. -/
theorem op_eq_spec (a b : BoundedValue) :
    ((a.Bottom = true ∨ b.Bottom = true) →
      (a.op_eq b = true ↔ (a.Bottom = true ∧ b.Bottom = true))) ∧
    (a.Bottom = false → b.Bottom = false →
      (a.op_eq b = true ↔
        (a.Value = b.Value ∧ a.LowerBound = b.LowerBound ∧ a.UpperBound = b.UpperBound ∧
          a.Sign = b.Sign ∧ a.Negated = b.Negated))) ∧
    a.op_ne b = !a.op_eq b := by
  refine ⟨?_, ?_, rfl⟩
  · intro h
    rcases h with h | h <;> cases hA : a.Bottom <;> cases hB : b.Bottom <;>
      simp_all [BoundedValue.op_eq]
  · intro hA hB
    simp [BoundedValue.op_eq, hA, hB, and_assoc]

/-- C9 at a bottom and a non-bottom bounded value with all other fields
different or equal: they differ, and each equals itself. -/
theorem op_eq_spec_witness :
    (uninitializedBottom.op_eq constantFive = true ↔
      (uninitializedBottom.Bottom = true ∧ constantFive.Bottom = true)) ∧
    (constantFive.op_eq constantFive = true ↔
      (constantFive.Value = constantFive.Value ∧
        constantFive.LowerBound = constantFive.LowerBound ∧
        constantFive.UpperBound = constantFive.UpperBound ∧
        constantFive.Sign = constantFive.Sign ∧
        constantFive.Negated = constantFive.Negated)) :=
  ⟨(op_eq_spec uninitializedBottom constantFive).1 (Or.inl rfl),
   (op_eq_spec constantFive constantFive).2.1 rfl rfl⟩

/-- C10: on every bounded value `setTop` returns a bounded value over the
same value on which `isTop` returns true. -/
theorem setTop_isTop (b : BoundedValue) :
    ∃ r, b.setTop = some r ∧ r.isTop = some true ∧ r.Value = b.Value := by
  cases b with
  | mk V L U S B N =>
    cases S <;>
      simp [BoundedValue.setTop, BoundedValue.isTop, BoundedValue.isConstant,
        BoundedValue.isUninitialized, BoundedValue.lowerExtreme, BoundedValue.upperExtreme,
        UINT64_MIN, UINT64_MAX, INT64_MIN, INT64_MAX]

/-- C11, as stated, fails: a negated signed bounded value with its bounds at
the signed extremes is not top. -/
theorem isTop_negatedSignedFull :
    negatedSignedFull.Sign = .Signed ∧ negatedSignedFull.LowerBound = INT64_MIN ∧
    negatedSignedFull.UpperBound = INT64_MAX ∧ negatedSignedFull.isTop = some false := by
  refine ⟨rfl, rfl, rfl, ?_⟩
  simp [negatedSignedFull, BoundedValue.isTop, BoundedValue.isConstant,
    BoundedValue.isUninitialized, INT64_MIN, INT64_MAX]

/-- C11, amended: on a signed bounded value with its bounds at the signed
extremes `isTop` returns true when the value is not negated and false when it
is, whatever the bottom flag is. -/
theorem isTop_signed_extremes (b : BoundedValue) (hS : b.Sign = .Signed)
    (hL : b.LowerBound = INT64_MIN) (hU : b.UpperBound = INT64_MAX) :
    b.isTop = some (!b.Negated) := by
  cases b with
  | mk V L U S B N =>
    simp only [INT64_MIN, INT64_MAX] at hS hL hU
    subst hS
    simp only [BoundedValue.isTop, BoundedValue.isConstant, BoundedValue.isUninitialized,
      BoundedValue.lowerExtreme, BoundedValue.upperExtreme, INT64_MIN, INT64_MAX, hL, hU]
    have h1 : ((2 : Nat) ^ 63 == 2 ^ 63 - 1) = false := by
      rw [beq_eq_false_iff_ne]
      norm_num
    have h2 : ((2 : Nat) ^ 63 == 2 ^ 63) = true := beq_self_eq_true _
    have h3 : ((2 : Nat) ^ 63 - 1 == 2 ^ 63 - 1) = true := beq_self_eq_true _
    simp only [h1, Option.bind_eq_bind, Option.some_bind, Option.pure_def, h2, h3]
    cases B <;> cases N <;> rfl

/-- The amended C11 at the bottom, non-negated signed value over the whole
range. -/
theorem isTop_signed_extremes_witness :
    BoundedValue.isTop
      { Value := none, LowerBound := INT64_MIN, UpperBound := INT64_MAX, Sign := .Signed,
        Bottom := true, Negated := false } = some (!false) :=
  isTop_signed_extremes
    { Value := none, LowerBound := INT64_MIN, UpperBound := INT64_MAX, Sign := .Signed,
      Bottom := true, Negated := false } rfl rfl rfl

/-- C12: an OSR whose pointer points to a bounded value is constant exactly
when that bounded value is, whatever its base and factor are: with factor zero
over a non-constant value it is not constant, and with a factor different from
zero over a constant value it is constant. -/
theorem OSR_isConstant_eq (m : BVMap) (o : OSR) (bv : BoundedValue)
    (h : m.deref o.BV = some bv) :
    o.isConstant m = some bv.isConstant ∧
    (o.Factor = 0 → bv.isConstant = false → o.isConstant m = some false) ∧
    (o.Factor ≠ 0 → bv.isConstant = true → o.isConstant m = some true) := by
  have hne : o.BV ≠ .null := by
    intro hn
    rw [hn] at h
    simp [BVMap.deref] at h
  have h1 : o.isConstant m = some bv.isConstant := by
    simp [OSR.isConstant, hne, h]
  refine ⟨h1, ?_, ?_⟩
  · intro _ hc
    rw [h1, hc]
  · intro _ hc
    rw [h1, hc]

/-- C12 at an OSR of factor zero over the constant five: it is constant. -/
theorem OSR_isConstant_eq_witness :
    threePlusZeroTimesFive.isConstant BVMap.mkDefault = some constantFive.isConstant ∧
    (threePlusZeroTimesFive.Factor = 0 → constantFive.isConstant = false →
      threePlusZeroTimesFive.isConstant BVMap.mkDefault = some false) ∧
    (threePlusZeroTimesFive.Factor ≠ 0 → constantFive.isConstant = true →
      threePlusZeroTimesFive.isConstant BVMap.mkDefault = some true) :=
  OSR_isConstant_eq BVMap.mkDefault threePlusZeroTimesFive constantFive rfl

/-- C15 fails on the code: `releaseMemory` empties the OSRs and the `BVMap`
and leaves the subscriptions, the load reachers and the constraints as they
were; in the state where the instruction eight is subscribed to the load
seven, it still is after the release. -/
theorem releaseMemory_keeps_subscriptions :
    subscribedPass.releaseMemory.Subscriptions 7 = some [8] ∧
    subscribedPass.releaseMemory.LoadReachers 7 = some [(8, OSR.mkDefault)] ∧
    subscribedPass.releaseMemory.Constraints 8 = some [constantFive] ∧
    (∀ s : OSRAPass,
      s.releaseMemory.OSRs = StdMap.empty ∧ s.releaseMemory.BVs.TheMap = StdMap.empty ∧
      s.releaseMemory.BVs.BBMap = StdMap.empty ∧
      s.releaseMemory.Subscriptions = s.Subscriptions ∧
      s.releaseMemory.LoadReachers = s.LoadReachers ∧
      s.releaseMemory.Constraints = s.Constraints) := by
  refine ⟨?_, ?_, ?_, ?_⟩
  · simp [OSRAPass.releaseMemory, subscribedPass, StdMap.assign]
  · simp [OSRAPass.releaseMemory, subscribedPass, StdMap.assign]
  · simp [OSRAPass.releaseMemory, subscribedPass, StdMap.assign]
  · intro s
    exact ⟨rfl, rfl, rfl, rfl, rfl, rfl⟩

/-- C16: `getOSR` leaves the state of the pass as it was; it returns an OSR
exactly when the value is an instruction with an entry in the map of the OSRs,
and then that entry; it returns null for every value that is not an
instruction and for every value without an entry. -/
theorem getOSR_spec (s : OSRAPass) (V : LLVMValue) :
    (s.getOSR V).2 = s ∧
    (∀ o, (s.getOSR V).1 = some o ↔ (LLVMClass.Instruction.isa V = true ∧ s.OSRs V = some o)) ∧
    (LLVMClass.Instruction.isa V = false → (s.getOSR V).1 = none) ∧
    (s.OSRs V = none → (s.getOSR V).1 = none) := by
  cases V with
  | ConstantInt w v => simp [OSRAPass.getOSR, LLVMClass.isa]
  | Argument i => simp [OSRAPass.getOSR, LLVMClass.isa]
  | Instruction i =>
    cases h : s.OSRs (.Instruction i) <;> simp [OSRAPass.getOSR, LLVMClass.isa, h]

/-- C16 at an integer constant, which is not an instruction: the result is
null. -/
theorem getOSR_spec_witness :
    (subscribedPass.getOSR (.ConstantInt 64 1)).1 = none :=
  (getOSR_spec subscribedPass (.ConstantInt 64 1)).2.2.1 rfl

/-- C19, as stated, fails: `createNE(v, 0, false)` is a constant for
`isConstant`, which does not look at the negation flag. -/
theorem isConstant_createNE_zero :
    BoundedValue.createNE (fun _ => .AnySignedness) (.Instruction 0) 0 false
      = some neZeroUnsigned ∧
    neZeroUnsigned.isConstant = true := by
  refine ⟨?_, ?_⟩
  · simp [BoundedValue.createNE, BoundedValue.ofValue, LLVMValue.isConstantInt,
      BoundedValue.setSignedness, neZeroUnsigned]
  · simp [neZeroUnsigned, BoundedValue.isConstant, BoundedValue.isUninitialized]

/-- C19, amended: `isConstant` does not look at the negation flag, so for
every value that is not an integer constant, every `k` and every signedness
the negated bounded value `createNE` builds is a constant for `isConstant`,
and `constant` returns `k` on it. -/
theorem isConstant_createNE (onAny : Bool → Signedness) (v : LLVMValue) (k : Nat) (s : Bool)
    (hv : v.isConstantInt = false) :
    ∃ b, BoundedValue.createNE onAny v k s = some b ∧ b.Negated = true ∧
      b.isConstant = true ∧ b.constant = some k := by
  have h := ofValue_of_not_constant v hv
  cases s <;>
    simp [BoundedValue.createNE, h, BoundedValue.setSignedness, BoundedValue.isConstant,
      BoundedValue.isUninitialized, BoundedValue.constant]

/-- The amended C19 at an instruction, the value seven and a signed use. -/
theorem isConstant_createNE_witness :
    ∃ b, BoundedValue.createNE (fun _ => .AnySignedness) (.Instruction 0) 7 true = some b ∧
      b.Negated = true ∧ b.isConstant = true ∧ b.constant = some 7 :=
  isConstant_createNE (fun _ => .AnySignedness) (.Instruction 0) 7 true rfl

/-- C20, as stated, fails: the OSR of base three and factor zero over the
constant five denotes three, and its method `constant` returns five. -/
theorem OSR_constant_ignores_base :
    BVMap.mkDefault.deref threePlusZeroTimesFive.BV = some constantFive ∧
    constantFive.constant = some 5 ∧
    threePlusZeroTimesFive.constant BVMap.mkDefault = some 5 ∧
    threePlusZeroTimesFive.denotes 5 = 3 ∧ threePlusZeroTimesFive.Base = 3 := by
  refine ⟨rfl, ?_, ?_, ?_, rfl⟩
  · simp [constantFive, BoundedValue.constant, BoundedValue.isConstant,
      BoundedValue.isUninitialized]
  · simp [threePlusZeroTimesFive, OSR.constant, BVMap.deref, constantFive,
      BoundedValue.constant, BoundedValue.isConstant, BoundedValue.isUninitialized]
  · simp [threePlusZeroTimesFive, OSR.denotes]

/-- C20, amended: for an OSR whose bounded value is a constant of value `k`,
the method `constant` returns `k`, whatever the base and the factor are; that
is the value the OSR denotes when the base is zero and the factor is one, as
in an OSR fresh from its constructor. -/
theorem OSR_constant_eq (m : BVMap) (o : OSR) (bv : BoundedValue) (k : Nat)
    (h : m.deref o.BV = some bv) (hk : bv.constant = some k) (hlt : k < 2 ^ 64) :
    o.constant m = some k ∧
    (o.Base = 0 → o.Factor = 1 → o.constant m = some (o.denotes k)) := by
  have h1 : o.constant m = some k := by
    simp [OSR.constant, h, hk]
  refine ⟨h1, ?_⟩
  intro hB hF
  rw [h1, OSR.denotes, hB, hF, Nat.zero_add, Nat.one_mul, Nat.mod_eq_of_lt hlt]

/-- The amended C20 at the OSR of base three and factor zero over the
constant five. -/
theorem OSR_constant_eq_witness :
    threePlusZeroTimesFive.constant BVMap.mkDefault = some 5 ∧
    (threePlusZeroTimesFive.Base = 0 → threePlusZeroTimesFive.Factor = 1 →
      threePlusZeroTimesFive.constant BVMap.mkDefault
        = some (threePlusZeroTimesFive.denotes 5)) :=
  OSR_constant_eq BVMap.mkDefault threePlusZeroTimesFive constantFive 5 rfl
    (by simp [constantFive, BoundedValue.constant, BoundedValue.isConstant,
      BoundedValue.isUninitialized])
    (by norm_num)

/-- An assignment to a `std::map` is read back under its key. -/
theorem StdMap.assign_same {K V : Type} [DecidableEq K] (Map : StdMap K V) (Key : K)
    (Value : V) : Map.assign Key Value Key = some Value := by
  simp [StdMap.assign]

/-- An assignment to a `std::map` leaves the other keys as they were. -/
theorem StdMap.assign_other {K V : Type} [DecidableEq K] (Map : StdMap K V) (Key k : K)
    (Value : V) (h : k ≠ Key) : Map.assign Key Value k = Map k := by
  simp [StdMap.assign, h]

/-- The method `BVMap::get` on a key over a value: it returns a reference to
the summary under that key, the entry exists afterwards, no other entry has
changed, and the map is left as it was when the entry existed already. -/
theorem BVMap.get_spec (recompute : BasicBlock → MapValue → BoundedValue) (m : BVMap)
    (BB : BasicBlock) (v : LLVMValue) :
    ∃ m2 mv, m.get recompute BB (some v) = some (.summary BB (some v), m2) ∧
      m2.TheMap (BB, some v) = some mv ∧
      (∀ k, k ≠ (BB, some v) → m2.TheMap k = m.TheMap k) ∧ m2.BBMap = m.BBMap ∧
      ((m.TheMap (BB, some v)).isSome = true → m2 = m) := by
  cases h : m.TheMap (BB, some v) with
  | some mv0 =>
    refine ⟨m, mv0, ?_, h, fun _ _ => rfl, rfl, fun _ => rfl⟩
    simp [BVMap.get, h]
  | none =>
    obtain ⟨b, hb, _⟩ := ofValue_intrinsic v
    refine ⟨⟨(m.TheMap.assign (BB, some v) ⟨b, []⟩).assign (BB, some v)
        ⟨recompute BB ⟨b, []⟩, []⟩, m.BBMap⟩, ⟨recompute BB ⟨b, []⟩, []⟩,
      ?_, StdMap.assign_same _ _ _, ?_, rfl, ?_⟩
    · simp only [BVMap.get, h, hb, BVMap.summarize, Option.bind_eq_bind, Option.some_bind,
        Option.pure_def, StdMap.assign_same]
    · intro k hk
      simp only [StdMap.assign_other _ _ _ _ hk]
    · intro hs
      simp at hs

/-- C13, as stated, fails: the OSR built on a pointer to the bounded value of
the default constructor has a non-null pointer, its bounded value is over the
null value, and in a map without entry under that key `switchBlock` aborts in
the constructor of the new summary instead of returning an OSR. -/
theorem switchBlock_null_value :
    overDefaultValue.BV ≠ .null ∧
    subscribedPass.BVs.deref overDefaultValue.BV = some BoundedValue.mkDefault ∧
    BoundedValue.mkDefault.Value = none ∧
    subscribedPass.BVs.TheMap (2, none) = none ∧
    subscribedPass.switchBlock (fun _ mv => mv.Summary) overDefaultValue 2 = none := by
  refine ⟨by simp [overDefaultValue, OSR.ofBoundedValue], rfl, rfl, rfl, ?_⟩
  simp [OSRAPass.switchBlock, OSR.boundedValue, overDefaultValue, OSR.ofBoundedValue,
    subscribedPass, BVMap.mkDefault, BVMap.deref, BVMap.get, BoundedValue.value,
    BoundedValue.mkDefault, StdMap.empty]

/-- C13, amended: for an OSR whose pointer points to a bounded value and for
every block such that the value of that bounded value is not null or the map
has an entry under the key of the block and that value already, `switchBlock`
returns an OSR with the same base and factor whose pointer points to the
summary the map stores under that key; the entry exists afterwards, the
entries under the other keys are as before, and nothing changes when the entry
existed already. When the value is null and the entry is missing,
`switchBlock` aborts. -/
theorem switchBlock_spec (recompute : BasicBlock → MapValue → BoundedValue) (s : OSRAPass)
    (o : OSR) (BB : BasicBlock) (bv : BoundedValue)
    (h : s.BVs.deref o.BV = some bv) :
    ((bv.Value ≠ none ∨ (s.BVs.TheMap (BB, bv.Value)).isSome = true) →
      ∃ o2 s2 mv, s.switchBlock recompute o BB = some (o2, s2) ∧
        o2.Base = o.Base ∧ o2.Factor = o.Factor ∧ o2.BV = .summary BB bv.Value ∧
        s2.BVs.TheMap (BB, bv.Value) = some mv ∧ s2.BVs.deref o2.BV = some mv.Summary ∧
        (∀ k, k ≠ (BB, bv.Value) → s2.BVs.TheMap k = s.BVs.TheMap k) ∧
        ((s.BVs.TheMap (BB, bv.Value)).isSome = true → s2 = s)) ∧
    (bv.Value = none → s.BVs.TheMap (BB, none) = none →
      s.switchBlock recompute o BB = none) := by
  have hne : o.BV ≠ .null := by
    intro hn
    rw [hn] at h
    simp [BVMap.deref] at h
  constructor
  · intro hv
    cases hentry : s.BVs.TheMap (BB, bv.Value) with
    | some mv0 =>
      refine ⟨o.setBoundedValue (.summary BB bv.Value), s, mv0, ?_, rfl, rfl, rfl, hentry,
        ?_, fun _ _ => rfl, fun _ => rfl⟩
      · simp [OSRAPass.switchBlock, OSR.boundedValue, hne, h, BoundedValue.value, BVMap.get,
          hentry]
      · simp [OSR.setBoundedValue, BVMap.deref, hentry]
    | none =>
      have hsome : bv.Value ≠ none := by
        rcases hv with hv | hv
        · exact hv
        · rw [hentry] at hv
          simp at hv
      obtain ⟨v, hval⟩ := Option.ne_none_iff_exists.mp hsome
      rw [← hval] at hentry ⊢
      obtain ⟨m2, mv, hget, hmv, hother, _, _⟩ := BVMap.get_spec recompute s.BVs BB v
      refine ⟨o.setBoundedValue (.summary BB (some v)), { s with BVs := m2 }, mv, ?_, rfl,
        rfl, rfl, hmv, ?_, hother, ?_⟩
      · simp [OSRAPass.switchBlock, OSR.boundedValue, hne, h, BoundedValue.value, ← hval,
          hget]
      · simp [OSR.setBoundedValue, BVMap.deref, hmv]
      · intro hs
        simp at hs
  · intro hnull hmiss
    simp [OSRAPass.switchBlock, OSR.boundedValue, hne, h, BoundedValue.value, hnull,
      BVMap.get, hmiss]

/-- The amended C13 at the OSR over the constant five of an instruction, in a
pass without entries: the entry is created. -/
theorem switchBlock_spec_witness :
    ∃ o2 s2 mv, subscribedPass.switchBlock (fun _ mv => mv.Summary)
        threePlusZeroTimesFive 2 = some (o2, s2) ∧
      o2.Base = threePlusZeroTimesFive.Base ∧ o2.Factor = threePlusZeroTimesFive.Factor ∧
      o2.BV = .summary 2 constantFive.Value ∧
      s2.BVs.TheMap (2, constantFive.Value) = some mv ∧
      s2.BVs.deref o2.BV = some mv.Summary ∧
      (∀ k, k ≠ (2, constantFive.Value) →
        s2.BVs.TheMap k = subscribedPass.BVs.TheMap k) ∧
      ((subscribedPass.BVs.TheMap (2, constantFive.Value)).isSome = true →
        s2 = subscribedPass) :=
  (switchBlock_spec (fun _ mv => mv.Summary) subscribedPass threePlusZeroTimesFive 2
    constantFive rfl).1 (Or.inl (by simp [constantFive]))

/-- C14: after `forceBV` on a block, a value and a bounded value, `get` on the
same key returns a reference to the summary, which is exactly that bounded
value, and leaves the map as it is; `getEdge` returns null for every
predecessor; the entries under the other keys are as before. On an instruction
`forceBV` does the same under the key of its parent and itself, and the entry
is forced. -/
theorem forceBV_spec (recompute : BasicBlock → MapValue → BoundedValue)
    (getParent : Nat → BasicBlock) (m : BVMap) (BB : BasicBlock) (V : Option LLVMValue)
    (I : Nat) (bv : BoundedValue) :
    (m.forceBV BB V bv).1 = .summary BB V ∧
    (m.forceBV BB V bv).2.get recompute BB V = some (.summary BB V, (m.forceBV BB V bv).2) ∧
    (m.forceBV BB V bv).2.deref (.summary BB V) = some bv ∧
    (∀ P, (m.forceBV BB V bv).2.getEdge BB P V = .null) ∧
    (∀ k, k ≠ (BB, V) → (m.forceBV BB V bv).2.TheMap k = m.TheMap k) ∧
    m.forceBVInstruction getParent I bv = m.forceBV (getParent I) (some (.Instruction I)) bv ∧
    (m.forceBVInstruction getParent I bv).2.isForced getParent
      (getParent I, some (.Instruction I)) = some true := by
  refine ⟨rfl, ?_, ?_, ?_, ?_, rfl, ?_⟩
  · simp [BVMap.get, BVMap.forceBV, StdMap.assign_same]
  · simp [BVMap.deref, BVMap.forceBV, StdMap.assign_same]
  · intro P
    simp [BVMap.getEdge, BVMap.forceBV, StdMap.assign_same]
  · intro k hk
    simp [BVMap.forceBV, StdMap.assign_other _ _ _ _ hk]
  · simp [BVMap.isForced, BVMap.forceBVInstruction, StdMap.assign_same]

/-- C17 fails on the code: asked for an integer constant and an instruction,
on a user whose two operands are integer constants, `operandsByType` returns
the second constant and a null pointer, a tuple that is partly null. -/
theorem operandsByType_partly_null :
    twoConstants.Operands.length = [LLVMClass.ConstantInt, LLVMClass.Instruction].length ∧
    operandsByType [.ConstantInt, .Instruction] twoConstants
      = some [some (.ConstantInt 64 2), none] := by
  refine ⟨rfl, ?_⟩
  simp [operandsByType, operandsByTypeLoop, findOperand, twoConstants, LLVMClass.isa]

/-- Once `ExhaustOnly` is set, the loop of `visitSuccessors` returns within as
many iterations as there are ranges in the queue; the visitor is invoked on
the ranges of the queue, in order, and on all of them unless it answers
`StopNow`, which then is its last answer. -/
theorem visitLoop_exhaustOnly {σ : Type} (cfg : CFG)
    (Visitor : σ → BasicBlockRange → VisitAction × σ) :
    ∀ (Queue : List BasicBlockRange) (n : Nat) (Visited : List BasicBlock) (State : σ),
      Queue.length ≤ n →
      ∃ Calls State2,
        visitLoop cfg Visitor n
          { Visited := Visited, Queue := Queue, ExhaustOnly := true, State := State }
          = some (.returned Calls State2) ∧
        (∃ Skipped, Calls.map Prod.fst ++ Skipped = Queue) ∧
        (Calls.map Prod.fst = Queue ∨ ∃ r, Calls.getLast? = some (r, .StopNow)) := by
  intro Queue
  induction Queue with
  | nil =>
    intro n Visited State _
    refine ⟨[], State, ?_, ⟨[], rfl⟩, Or.inl rfl⟩
    unfold visitLoop
    rfl
  | cons Range Rest ih =>
    intro n Visited State hn
    cases n with
    | zero => simp at hn
    | succ n =>
      have hn2 : Rest.length ≤ n := by
        simp only [List.length_cons] at hn
        omega
      cases hv : Visitor State Range with
      | mk Action State1 =>
        obtain ⟨Calls, State2, hrun, ⟨Skipped, hpre⟩, hall⟩ := ih n Visited State1 hn2
        have hlast : ∀ a : VisitAction,
            (Calls.map Prod.fst = Rest ∨ ∃ r, Calls.getLast? = some (r, .StopNow)) →
            (((Range, a) :: Calls).map Prod.fst = Range :: Rest ∨
              ∃ r, ((Range, a) :: Calls).getLast? = some (r, .StopNow)) := by
          intro a h
          rcases h with h | ⟨r, h⟩
          · exact Or.inl (by simp [h])
          · refine Or.inr ⟨r, ?_⟩
            cases Calls with
            | nil => simp at h
            | cons c cs => simpa [List.getLast?_cons_cons] using h
        cases Action with
        | Continue =>
          refine ⟨(Range, .Continue) :: Calls, State2, ?_, ⟨Skipped, by simp [hpre]⟩,
            hlast _ hall⟩
          unfold visitLoop
          simp [hv, hrun, VisitEnd.cons]
        | NoSuccessors =>
          refine ⟨(Range, .NoSuccessors) :: Calls, State2, ?_, ⟨Skipped, by simp [hpre]⟩,
            hlast _ hall⟩
          unfold visitLoop
          simp [hv, hrun, VisitEnd.cons]
        | ExhaustQueueAndStop =>
          refine ⟨(Range, .ExhaustQueueAndStop) :: Calls, State2, ?_,
            ⟨Skipped, by simp [hpre]⟩, hlast _ hall⟩
          unfold visitLoop
          simp [hv, hrun, VisitEnd.cons]
        | StopNow =>
          refine ⟨[(Range, .StopNow)], State1, ?_, ⟨Rest, by simp⟩, Or.inr ⟨Range, rfl⟩⟩
          unfold visitLoop
          simp [hv]

/-- C18: when the visitor answers `ExhaustQueueAndStop` on the range at the
head of the queue, nothing is added to the queue, and from then on the visitor
is invoked only on the ranges that were pending in the queue at that moment,
in queue order, whatever it answers for them; it is invoked on all of them
unless it answers `StopNow`, and the visit returns. -/
theorem exhaustQueueAndStop_only_pending {σ : Type} (cfg : CFG)
    (Visitor : σ → BasicBlockRange → VisitAction × σ) (n : Nat) (st : VisitState σ)
    (Range : BasicBlockRange) (Rest : List BasicBlockRange) (State1 : σ)
    (hq : st.Queue = Range :: Rest)
    (hv : Visitor st.State Range = (.ExhaustQueueAndStop, State1))
    (hn : Rest.length ≤ n) :
    visitLoop cfg Visitor (n + 1) st
      = (visitLoop cfg Visitor n
          { Visited := st.Visited, Queue := Rest, ExhaustOnly := true, State := State1 }).map
          (VisitEnd.cons (Range, .ExhaustQueueAndStop)) ∧
    ∃ Calls State2,
      visitLoop cfg Visitor (n + 1) st
        = some (.returned ((Range, .ExhaustQueueAndStop) :: Calls) State2) ∧
      (∃ Skipped, Calls.map Prod.fst ++ Skipped = Rest) ∧
      (Calls.map Prod.fst = Rest ∨ ∃ r, Calls.getLast? = some (r, .StopNow)) := by
  have hstep : visitLoop cfg Visitor (n + 1) st
      = (visitLoop cfg Visitor n
          { Visited := st.Visited, Queue := Rest, ExhaustOnly := true, State := State1 }).map
          (VisitEnd.cons (Range, .ExhaustQueueAndStop)) := by
    conv_lhs => unfold visitLoop
    simp [hq, hv]
  obtain ⟨Calls, State2, hrun, hpre, hall⟩ :=
    visitLoop_exhaustOnly cfg Visitor Rest n st.Visited State1 hn
  refine ⟨hstep, Calls, State2, ?_, hpre, hall⟩
  rw [hstep, hrun]
  rfl

/-- C18 at a queue with two pending blocks and a visitor that always answers
`ExhaustQueueAndStop`. -/
theorem exhaustQueueAndStop_only_pending_witness :
    visitLoop straightLine exhaustingVisitor (1 + 1) twoPending
      = (visitLoop straightLine exhaustingVisitor 1
          { Visited := twoPending.Visited, Queue := [{ Parent := 1, Begin := 0, End := 1 }],
            ExhaustOnly := true, State := () }).map
          (VisitEnd.cons ({ Parent := 0, Begin := 0, End := 1 }, .ExhaustQueueAndStop)) ∧
    ∃ Calls State2,
      visitLoop straightLine exhaustingVisitor (1 + 1) twoPending
        = some (.returned
            (({ Parent := 0, Begin := 0, End := 1 }, .ExhaustQueueAndStop) :: Calls) State2) ∧
      (∃ Skipped, Calls.map Prod.fst ++ Skipped = [{ Parent := 1, Begin := 0, End := 1 }]) ∧
      (Calls.map Prod.fst = [{ Parent := 1, Begin := 0, End := 1 }] ∨
        ∃ r, Calls.getLast? = some (r, .StopNow)) :=
  exhaustQueueAndStop_only_pending straightLine exhaustingVisitor 1 twoPending
    { Parent := 0, Begin := 0, End := 1 } [{ Parent := 1, Begin := 0, End := 1 }] ()
    rfl rfl (Nat.le_refl 1)

/-- C21: `apply` returns the target unchanged when the target is bottom, is
top, or has no concrete signedness, whatever the base and the factor are; in
exactly the remaining cases its result is that of `moveTo` on the target, the
value, the base and the factor. -/
theorem OSR_apply_spec
    (moveTo : BoundedValue → Option LLVMValue → Nat → Nat → Option BoundedValue)
    (o : OSR) (Target : BoundedValue) (V : Option LLVMValue) :
    ((Target.isBottom = true ∨ Target.isTop = some true ∨ Target.hasSignedness = false) →
      o.apply moveTo Target V = some Target) ∧
    (¬ (Target.isBottom = true ∨ Target.isTop = some true ∨ Target.hasSignedness = false) →
      o.apply moveTo Target V = moveTo Target V o.Base o.Factor) := by
  obtain ⟨⟨t, ht⟩, _⟩ := isTop_iff_specTop Target
  constructor
  · intro h
    cases hB : Target.isBottom with
    | true => simp [OSR.apply, hB]
    | false =>
      rcases h with h | h | h
      · rw [hB] at h
        exact absurd h (by simp)
      · simp [OSR.apply, hB, h]
      · simp [OSR.apply, hB, ht, h]
  · intro h
    simp only [not_or] at h
    obtain ⟨hB, hT, hS⟩ := h
    have hB2 : Target.isBottom = false := by simpa using hB
    have hS2 : Target.hasSignedness = true := by simpa using hS
    have ht2 : t = false := by
      cases t with
      | false => rfl
      | true => exact absurd ht hT
    subst ht2
    simp [OSR.apply, hB2, ht, hS2]

/-- C21 at the uninitialized bounded value, which is top: it is returned as it
is. -/
theorem OSR_apply_spec_witness :
    threePlusZeroTimesFive.apply (fun _ _ _ _ => none) BoundedValue.mkDefault none
      = some BoundedValue.mkDefault :=
  (OSR_apply_spec (fun _ _ _ _ => none) threePlusZeroTimesFive BoundedValue.mkDefault none).1
    (Or.inr (Or.inl (by
      simp [BoundedValue.isTop, BoundedValue.mkDefault, BoundedValue.isConstant,
        BoundedValue.isUninitialized])))

/-- C24: `isa_with_op` returns null on an instruction that is not of class
`I`. On an instruction with two operands, as its assertion asks of every
instruction of class `I`, it returns the instruction exactly when it is of
class `I` with its first operand of class `F` and its second of class `S`, and
null otherwise; whenever it returns, the instruction and its operands are as
before, so that the operands are never swapped. -/
theorem isa_with_op_spec (I : InstructionClass) (F S : LLVMClass) (Inst : LLVMInstruction) :
    (I.isa Inst.Class = false → isa_with_op I F S Inst = some (none, Inst)) ∧
    (∀ r, isa_with_op I F S Inst = some r → r.2 = Inst ∧ (r.1 = none ∨ r.1 = some Inst)) ∧
    (∀ Op0 Op1, Inst.Operands = [Op0, Op1] →
      (∃ r, isa_with_op I F S Inst = some r) ∧
      (isa_with_op I F S Inst = some (some Inst, Inst) ↔
        (I.isa Inst.Class = true ∧ F.isa Op0 = true ∧ S.isa Op1 = true)) ∧
      (¬ (I.isa Inst.Class = true ∧ F.isa Op0 = true ∧ S.isa Op1 = true) →
        isa_with_op I F S Inst = some (none, Inst))) ∧
    (I.isa Inst.Class = true → Inst.Operands.length ≠ 2 → isa_with_op I F S Inst = none) := by
  refine ⟨?_, ?_, ?_, ?_⟩
  · intro h
    simp [isa_with_op, h]
  · intro r hr
    cases hI : I.isa Inst.Class with
    | false =>
      simp only [isa_with_op, hI, Bool.false_eq_true, if_false, Option.some.injEq] at hr
      subst hr
      exact ⟨rfl, Or.inl rfl⟩
    | true =>
      rcases hops : Inst.Operands with _ | ⟨Op0, _ | ⟨Op1, _ | ⟨Op2, Rest⟩⟩⟩
      · simp [isa_with_op, LLVMInstruction.getNumOperands, hI, hops] at hr
      · simp [isa_with_op, LLVMInstruction.getNumOperands, hI, hops] at hr
      · simp only [isa_with_op, LLVMInstruction.getNumOperands, LLVMInstruction.getOperand,
          hI, hops, if_true, List.length_cons, List.length_nil, List.get?_cons_zero,
          List.get?_cons_succ, Option.bind_eq_bind, Option.some_bind, Option.pure_def] at hr
        simp only [Nat.reduceAdd, beq_self_eq_true, if_true] at hr
        split_ifs at hr
        · simp only [Option.some.injEq] at hr
          subst hr
          exact ⟨rfl, Or.inr rfl⟩
        · simp only [Option.some.injEq] at hr
          subst hr
          exact ⟨rfl, Or.inl rfl⟩
      · simp [isa_with_op, LLVMInstruction.getNumOperands, hI, hops] at hr
  · intro Op0 Op1 hops
    cases hI : I.isa Inst.Class <;> cases hF : F.isa Op0 <;> cases hS : S.isa Op1 <;>
      simp [isa_with_op, LLVMInstruction.getNumOperands, LLVMInstruction.getOperand, hops,
        hI, hF, hS]
  · intro hI hlen
    simp [isa_with_op, LLVMInstruction.getNumOperands, hI, hlen]

/-- C24 at a commutative binary operator whose operands are an integer
constant and an instruction, asked for an instruction and an integer constant
in that order: the result is null and the operands are not swapped. -/
theorem isa_with_op_spec_witness :
    isa_with_op .BinaryOperator .Instruction .ConstantInt addConstantInstruction
      = some (none, addConstantInstruction) :=
  ((isa_with_op_spec .BinaryOperator .Instruction .ConstantInt addConstantInstruction).2.2.1
    (.ConstantInt 64 1) (.Instruction 3) rfl).2.2 (by decide)

/-- C22: on a non-bottom bounded value of concrete sign that is a single
range, `actualBoundaries` returns a pair, `size` returns a size, and the size
is the difference of the upper and the lower bound of the pair modulo `2^64`,
for the non-negated values and for both kinds of negated values. -/
theorem size_eq_actualBoundaries (b : BoundedValue)
    (hB : b.Bottom = false) (hS : b.hasSignedness = true)
    (hR : b.isSingleRange = some true) :
    ∃ lo hi, b.actualBoundaries = some (lo, hi) ∧ b.size = some (u64sub hi lo) := by
  cases b with
  | mk V L U S B N =>
    simp only at hB
    subst hB
    cases S <;> cases N <;>
      simp [BoundedValue.hasSignedness] at hS <;>
      simp only [BoundedValue.actualBoundaries, BoundedValue.size, BoundedValue.isSingleRange,
        BoundedValue.isConstant, BoundedValue.isUninitialized, BoundedValue.lowerExtreme,
        BoundedValue.upperExtreme, BoundedValue.lower, BoundedValue.upper,
        BoundedValue.isSigned, UINT64_MIN, UINT64_MAX, INT64_MIN, INT64_MAX,
        ConstantInt_get, u64sub, u64add] at hR ⊢ <;>
      simp at hR ⊢
    · exact ⟨_, _, ⟨rfl, rfl⟩, by omega⟩
    · split_ifs at hR with h1 h2
      · simp at hR
      · rw [if_pos h2, if_pos h2]
        exact ⟨_, _, ⟨h1, rfl⟩, h1, by simp only [Option.some.injEq]; omega⟩
      · simp at hR
        rw [if_neg h2, if_neg h2, if_pos hR, if_pos hR]
        exact ⟨_, _, ⟨h1, rfl⟩, h1, by simp only [Option.some.injEq]; omega⟩
    · exact ⟨_, _, ⟨rfl, rfl⟩, by omega⟩
    · split_ifs at hR with h1 h2
      · simp at hR
      · rw [if_pos h2, if_pos h2]
        exact ⟨_, _, ⟨h1, rfl⟩, h1, by simp only [Option.some.injEq]; omega⟩
      · simp at hR
        rw [if_neg h2, if_neg h2, if_pos hR, if_pos hR]
        exact ⟨_, _, ⟨h1, rfl⟩, h1, by simp only [Option.some.injEq]; omega⟩
    · exact ⟨_, _, ⟨rfl, rfl⟩, by omega⟩
    · split_ifs at hR with h1 h2
      · simp at hR
      · rw [if_pos h2, if_pos h2]
        exact ⟨_, _, ⟨h1, rfl⟩, h1, by simp only [Option.some.injEq]; omega⟩
      · simp at hR
        rw [if_neg h2, if_neg h2, if_pos hR, if_pos hR]
        exact ⟨_, _, ⟨h1, rfl⟩, h1, by simp only [Option.some.injEq]; omega⟩

/-- C22 at the negated unsigned interval from zero to five, whose actual
boundaries are six and the upper extreme. -/
theorem size_eq_actualBoundaries_witness :
    ∃ lo hi, aboveFive.actualBoundaries = some (lo, hi) ∧
      aboveFive.size = some (u64sub hi lo) :=
  size_eq_actualBoundaries aboveFive rfl rfl
    (by simp [aboveFive, BoundedValue.isSingleRange, BoundedValue.isConstant,
      BoundedValue.isUninitialized, BoundedValue.lowerExtreme, UINT64_MIN])

/-- The loop of `nextValidPred` from an iterator that is not past the end
returns an iterator between the two; it is the end or it is on a block that is
not blacklisted, every block from the start up to it is blacklisted, and it is
the start when the start is on a block that is not blacklisted. -/
theorem nextValidPred_spec (BlockBlackList Preds : List BasicBlock) (End : Nat)
    (hEnd : End ≤ Preds.length) :
    ∀ (d It : Nat), End = It + d →
      ∃ r, nextValidPred BlockBlackList Preds It End = some r ∧ It ≤ r ∧ r ≤ End ∧
        (r = End ∨ ∃ BB, Preds.get? r = some BB ∧ BlockBlackList.contains BB = false) ∧
        (∀ j, It ≤ j → j < r →
          ∃ BB, Preds.get? j = some BB ∧ BlockBlackList.contains BB = true) ∧
        (∀ BB, Preds.get? It = some BB → BlockBlackList.contains BB = false → r = It) := by
  intro d
  induction d with
  | zero =>
    intro It hIt
    refine ⟨It, ?_, Nat.le_refl _, by omega, Or.inl (by omega), ?_, fun _ _ _ => rfl⟩
    · rw [nextValidPred]
      simp [hIt]
    · intro j h1 h2
      omega
  | succ d ih =>
    intro It hIt
    have hlt : It < Preds.length := by omega
    have hne : (It != End) = true := by
      simp only [bne_iff_ne, ne_eq]
      omega
    have hget : Preds.get? It = some (Preds.get ⟨It, hlt⟩) := List.get?_eq_get hlt
    cases hc : BlockBlackList.contains (Preds.get ⟨It, hlt⟩) with
    | false =>
      refine ⟨It, ?_, Nat.le_refl _, by omega, Or.inr ⟨_, hget, hc⟩, ?_, fun _ _ _ => rfl⟩
      · rw [nextValidPred]
        simp only [hne, if_true, hlt, dif_pos, hc, Bool.false_eq_true, if_false]
      · intro j h1 h2
        omega
    | true =>
      obtain ⟨r, hr, h1, h2, h3, h4, _⟩ := ih (It + 1) (by omega)
      refine ⟨r, ?_, by omega, h2, h3, ?_, ?_⟩
      · rw [nextValidPred]
        simp only [hne, if_true, hlt, dif_pos, hc, hr]
      · intro j hj1 hj2
        by_cases hj : j = It
        · subst hj
          exact ⟨_, hget, hc⟩
        · exact h4 j (by omega) hj2
      · intro BB hBB hcBB
        rw [hget] at hBB
        simp only [Option.some.injEq] at hBB
        subst hBB
        rw [hc] at hcBB
        exact absurd hcBB (by simp)

/-- C23: `getValidPred` returns the first predecessor of the block, in
predecessor order, that is not blacklisted, or the end iterator when every
predecessor is blacklisted. From an iterator that is not past the end,
`nextValidPred` returns the end or an iterator on a block that is not
blacklisted, every block it steps over is blacklisted, and an iterator that is
already on a block that is not blacklisted is not moved. -/
theorem getValidPred_spec (s : OSRAPass) (predecessors : BasicBlock → List BasicBlock)
    (BB : BasicBlock) (It End : Nat) (hIt : It ≤ End)
    (hEnd : End ≤ (predecessors BB).length) :
    (∃ r, s.getValidPred predecessors BB = some r ∧ r ≤ (predecessors BB).length ∧
      (r = (predecessors BB).length ∨
        ∃ P, (predecessors BB).get? r = some P ∧ s.BlockBlackList.contains P = false) ∧
      (∀ j, j < r →
        ∃ P, (predecessors BB).get? j = some P ∧ s.BlockBlackList.contains P = true)) ∧
    (∃ r, nextValidPred s.BlockBlackList (predecessors BB) It End = some r ∧
      It ≤ r ∧ r ≤ End ∧
      (r = End ∨
        ∃ P, (predecessors BB).get? r = some P ∧ s.BlockBlackList.contains P = false) ∧
      (∀ j, It ≤ j → j < r →
        ∃ P, (predecessors BB).get? j = some P ∧ s.BlockBlackList.contains P = true) ∧
      (∀ P, (predecessors BB).get? It = some P → s.BlockBlackList.contains P = false →
        r = It)) := by
  constructor
  · obtain ⟨r, hr, _, h2, h3, h4, _⟩ :=
      nextValidPred_spec s.BlockBlackList (predecessors BB) (predecessors BB).length
        (Nat.le_refl _) (predecessors BB).length 0 (by omega)
    exact ⟨r, hr, h2, h3, fun j hj => h4 j (Nat.zero_le _) hj⟩
  · exact nextValidPred_spec s.BlockBlackList (predecessors BB) End hEnd (End - It) It
      (by omega)

/-- C23 at a block whose predecessors are the blocks one and two, the first
of them blacklisted. -/
theorem getValidPred_spec_witness :
    ∃ r, blacklistingPass.getValidPred (fun _ => [1, 2]) 0 = some r ∧
      r ≤ ([1, 2] : List BasicBlock).length ∧
      (r = ([1, 2] : List BasicBlock).length ∨
        ∃ P, ([1, 2] : List BasicBlock).get? r = some P ∧
          blacklistingPass.BlockBlackList.contains P = false) ∧
      (∀ j, j < r →
        ∃ P, ([1, 2] : List BasicBlock).get? j = some P ∧
          blacklistingPass.BlockBlackList.contains P = true) :=
  (getValidPred_spec blacklistingPass (fun _ => [1, 2]) 0 0 2 (by decide) (by decide)).1

/-- The loop over the successors appends to the queue the whole ranges of the
blocks it adds to the visited set; these are distinct successors that were not
in the visited set. -/
theorem enqueueSuccessors_spec (cfg : CFG) :
    ∀ (Successors Visited : List BasicBlock) (Queue : List BasicBlockRange),
      ∃ Added : List BasicBlock,
        (enqueueSuccessors cfg Successors Visited Queue).2
          = Queue ++ Added.map (wholeBlock cfg) ∧
        (∀ b, b ∈ (enqueueSuccessors cfg Successors Visited Queue).1 ↔
          b ∈ Added ∨ b ∈ Visited) ∧
        Added.Nodup ∧ ∀ b ∈ Added, b ∉ Visited ∧ b ∈ Successors := by
  intro Successors
  induction Successors with
  | nil =>
    intro Visited Queue
    exact ⟨[], by simp [enqueueSuccessors], by simp [enqueueSuccessors], List.nodup_nil,
      by simp⟩
  | cons S Rest ih =>
    intro Visited Queue
    by_cases hS : S ∈ Visited
    · obtain ⟨Added, h1, h2, h3, h4⟩ := ih Visited Queue
      have hc : Visited.contains S = true := by simpa using hS
      refine ⟨Added, ?_, ?_, h3, ?_⟩
      · simp only [enqueueSuccessors, hc, Bool.not_true, Bool.false_eq_true, if_false]
        exact h1
      · simp only [enqueueSuccessors, hc, Bool.not_true, Bool.false_eq_true, if_false]
        exact h2
      · intro b hb
        exact ⟨(h4 b hb).1, List.mem_cons_of_mem _ (h4 b hb).2⟩
    · obtain ⟨Added, h1, h2, h3, h4⟩ :=
        ih (S :: Visited) (Queue ++ [{ Parent := S, Begin := 0, End := cfg.size S }])
      have hc : Visited.contains S = false := by simpa using hS
      refine ⟨S :: Added, ?_, ?_, ?_, ?_⟩
      · simp only [enqueueSuccessors, hc, Bool.not_false, if_true]
        rw [h1]
        simp [wholeBlock]
      · simp only [enqueueSuccessors, hc, Bool.not_false, if_true]
        intro b
        rw [h2 b]
        simp only [List.mem_cons]
        tauto
      · refine List.nodup_cons.mpr ⟨?_, h3⟩
        intro hmem
        exact (h4 S hmem).1 (List.mem_cons_self _ _)
      · intro b hb
        rcases List.mem_cons.mp hb with hb | hb
        · subst hb
          exact ⟨hS, List.mem_cons_self _ _⟩
        · exact ⟨fun hv => (h4 b hb).1 (List.mem_cons_of_mem _ hv),
            List.mem_cons_of_mem _ (h4 b hb).2⟩

/-- Membership in the blocks of a function outside of a set. -/
theorem mem_blocksOutside (Blocks Visited : List BasicBlock) (b : BasicBlock) :
    b ∈ blocksOutside Blocks Visited ↔ b ∈ Blocks ∧ b ∉ Visited := by
  simp [blocksOutside, List.mem_filter, List.mem_dedup]

/-- Distinct blocks of the function that are outside of a set are at most as
many as the blocks of the function outside of that set. -/
theorem length_le_blocksOutside (Blocks Visited New : List BasicBlock)
    (hN : New.Nodup) (hA : ∀ b ∈ New, b ∉ Visited ∧ b ∈ Blocks) :
    New.length ≤ (blocksOutside Blocks Visited).length := by
  refine (List.Nodup.subperm hN ?_).length_le
  intro b hb
  exact (mem_blocksOutside Blocks Visited b).mpr ⟨(hA b hb).2, (hA b hb).1⟩

/-- When distinct blocks of the function move into the visited set, the
blocks outside of it become fewer by their number at least. -/
theorem blocksOutside_length_le (Blocks Visited Visited2 Added : List BasicBlock)
    (hN : Added.Nodup) (hA : ∀ b ∈ Added, b ∉ Visited ∧ b ∈ Blocks)
    (hV : ∀ b, b ∈ Visited2 ↔ b ∈ Added ∨ b ∈ Visited) :
    Added.length + (blocksOutside Blocks Visited2).length
      ≤ (blocksOutside Blocks Visited).length := by
  have hnd : (Added ++ blocksOutside Blocks Visited2).Nodup := by
    refine List.Nodup.append hN ?_ ?_
    · exact List.Nodup.filter _ (List.nodup_dedup _)
    · intro b hb1 hb2
      exact ((mem_blocksOutside Blocks Visited2 b).mp hb2).2 ((hV b).mpr (Or.inl hb1))
  have hsub : Added ++ blocksOutside Blocks Visited2 ⊆ blocksOutside Blocks Visited := by
    intro b hb
    rcases List.mem_append.mp hb with hb | hb
    · exact (mem_blocksOutside Blocks Visited b).mpr ⟨(hA b hb).2, (hA b hb).1⟩
    · have h := (mem_blocksOutside Blocks Visited2 b).mp hb
      exact (mem_blocksOutside Blocks Visited b).mpr
        ⟨h.1, fun hv => h.2 ((hV b).mpr (Or.inr hv))⟩
  have hle := (List.Nodup.subperm hnd hsub).length_le
  simpa [List.length_append] using hle

/-- The invocations of a run with one more invocation in front. -/
theorem VisitEnd.Calls_cons {σ : Type} (Call : BasicBlockRange × VisitAction)
    (e : VisitEnd σ) : (VisitEnd.cons Call e).Calls = Call :: e.Calls := by
  cases e <;> rfl

/-- One more invocation in front does not change how a run ends. -/
theorem VisitEnd.isReturned_cons {σ : Type} (Call : BasicBlockRange × VisitAction)
    (e : VisitEnd σ) : (VisitEnd.cons Call e).isReturned = e.isReturned := by
  cases e <;> rfl

/-- In a function whose blocks are listed in `Blocks`, the loop of
`visitSuccessors` ends within as many iterations as there are ranges in the
queue and blocks of the function outside of the visited set. The visitor is
invoked on ranges of the queue and then on whole ranges of distinct blocks of
the function that were not in the visited set, in that order. When no range of
the queue and no block is empty, the loop ends by returning. -/
theorem visitLoop_terminates {σ : Type} (cfg : CFG)
    (Visitor : σ → BasicBlockRange → VisitAction × σ) (Blocks : List BasicBlock)
    (hclosed : ∀ b s, s ∈ cfg.successors b → s ∈ Blocks) :
    ∀ (fuel : Nat) (st : VisitState σ),
      st.Queue.length + (blocksOutside Blocks st.Visited).length ≤ fuel →
      ∃ (e : VisitEnd σ) (New : List BasicBlock) (Skipped : List BasicBlockRange),
        visitLoop cfg Visitor fuel st = some e ∧
        e.Calls.map Prod.fst ++ Skipped = st.Queue ++ New.map (wholeBlock cfg) ∧
        New.Nodup ∧ (∀ b ∈ New, b ∉ st.Visited ∧ b ∈ Blocks) ∧
        ((∀ r ∈ st.Queue, r.Begin < r.End) → (∀ b, 0 < cfg.size b) →
          e.isReturned = true) := by
  intro fuel
  induction fuel with
  | zero =>
    intro st h
    have hq : st.Queue = [] := List.length_eq_zero.mp (by omega)
    refine ⟨.returned [] st.State, [], [], ?_, by simp [hq, VisitEnd.Calls],
      List.nodup_nil, by simp, fun _ _ => rfl⟩
    unfold visitLoop
    simp [hq]
  | succ n ih =>
    intro st h
    cases st with
    | mk Visited Queue ExhaustOnly State =>
      cases Queue with
      | nil =>
        refine ⟨.returned [] State, [], [], ?_, by simp [VisitEnd.Calls],
          List.nodup_nil, by simp, fun _ _ => rfl⟩
        unfold visitLoop
        simp
      | cons Range Rest =>
        simp only [List.length_cons] at h
        cases hv : Visitor State Range with
        | mk Action State1 =>
          have plain : ∀ (x : Bool) (a : VisitAction),
              ∃ (e : VisitEnd σ) (New : List BasicBlock) (Skipped : List BasicBlockRange),
              (visitLoop cfg Visitor n
                { Visited := Visited, Queue := Rest, ExhaustOnly := x, State := State1 }).map
                (VisitEnd.cons (Range, a)) = some e ∧
              e.Calls.map Prod.fst ++ Skipped = (Range :: Rest) ++ New.map (wholeBlock cfg) ∧
              New.Nodup ∧ (∀ b ∈ New, b ∉ Visited ∧ b ∈ Blocks) ∧
              ((∀ r ∈ Range :: Rest, r.Begin < r.End) → (∀ b, 0 < cfg.size b) →
                e.isReturned = true) := by
            intro x a
            obtain ⟨e, New, Skipped, he, hc, hN, hA, hret⟩ :=
              ih { Visited := Visited, Queue := Rest, ExhaustOnly := x, State := State1 }
                (by simp only; omega)
            refine ⟨VisitEnd.cons (Range, a) e, New, Skipped, by simp [he], ?_, hN, hA, ?_⟩
            · simp only at hc
              simp [VisitEnd.Calls_cons, hc]
            · intro hr hs
              rw [VisitEnd.isReturned_cons]
              exact hret (fun r hmem => hr r (List.mem_cons_of_mem _ hmem)) hs
          cases Action with
          | Continue =>
            cases ExhaustOnly with
            | true =>
              obtain ⟨e, New, Skipped, he, hrest⟩ := plain true .Continue
              refine ⟨e, New, Skipped, ?_, hrest⟩
              unfold visitLoop
              simp [hv, he]
            | false =>
              cases hp : Range.beginParent with
              | none =>
                refine ⟨.aborted [(Range, .Continue)], [], Rest, ?_, by simp [VisitEnd.Calls],
                  List.nodup_nil, by simp, ?_⟩
                · unfold visitLoop
                  simp [hv, hp]
                · intro hr _
                  have hlt := hr Range (List.mem_cons_self _ _)
                  simp [BasicBlockRange.beginParent, hlt] at hp
              | some BB =>
                obtain ⟨Added, h1, h2, h3, h4⟩ :=
                  enqueueSuccessors_spec cfg (cfg.successors BB) Visited Rest
                have hA : ∀ b ∈ Added, b ∉ Visited ∧ b ∈ Blocks :=
                  fun b hb => ⟨(h4 b hb).1, hclosed BB b (h4 b hb).2⟩
                have hcount := blocksOutside_length_le Blocks Visited
                  (enqueueSuccessors cfg (cfg.successors BB) Visited Rest).1 Added h3 hA h2
                obtain ⟨e, New, Skipped, he, hc, hN, hB, hret⟩ :=
                  ih { Visited := (enqueueSuccessors cfg (cfg.successors BB) Visited Rest).1,
                       Queue := (enqueueSuccessors cfg (cfg.successors BB) Visited Rest).2,
                       ExhaustOnly := false, State := State1 }
                    (by
                      simp only [h1, List.length_append, List.length_map]
                      omega)
                simp only at hc hB hret
                refine ⟨VisitEnd.cons (Range, .Continue) e, Added ++ New, Skipped, ?_, ?_, ?_,
                  ?_, ?_⟩
                · unfold visitLoop
                  simp [hv, hp, he]
                · rw [h1] at hc
                  simp [VisitEnd.Calls_cons, hc]
                · refine List.Nodup.append h3 hN ?_
                  intro b hb1 hb2
                  exact (hB b hb2).1 ((h2 b).mpr (Or.inl hb1))
                · intro b hb
                  rcases List.mem_append.mp hb with hb | hb
                  · exact hA b hb
                  · exact ⟨fun hv2 => (hB b hb).1 ((h2 b).mpr (Or.inr hv2)), (hB b hb).2⟩
                · intro hr hs
                  rw [VisitEnd.isReturned_cons]
                  refine hret ?_ hs
                  intro r hmem
                  rw [h1] at hmem
                  rcases List.mem_append.mp hmem with hmem | hmem
                  · exact hr r (List.mem_cons_of_mem _ hmem)
                  · obtain ⟨b, _, hb⟩ := List.mem_map.mp hmem
                    subst hb
                    exact hs b
          | NoSuccessors =>
            obtain ⟨e, New, Skipped, he, hrest⟩ := plain ExhaustOnly .NoSuccessors
            refine ⟨e, New, Skipped, ?_, hrest⟩
            unfold visitLoop
            simp [hv, he]
          | ExhaustQueueAndStop =>
            obtain ⟨e, New, Skipped, he, hrest⟩ := plain true .ExhaustQueueAndStop
            refine ⟨e, New, Skipped, ?_, hrest⟩
            unfold visitLoop
            simp [hv, he]
          | StopNow =>
            refine ⟨.returned [(Range, .StopNow)] State1, [], Rest, ?_,
              by simp [VisitEnd.Calls], List.nodup_nil, by simp, fun _ _ => rfl⟩
            unfold visitLoop
            simp [hv]

/-- C25: in a function whose blocks are listed in `Blocks`, for every
instruction, every set of blocks to ignore and every visitor, the visit ends
within one iteration more than there are blocks outside of the ignored set.
The visitor is invoked first on the rest of the block of the instruction and
then on whole ranges of distinct blocks that are not ignored, so at most once
more than there are blocks outside of the ignored set. The visit ends by
returning when the instruction is not the last one of its block and no block
is empty; otherwise it may abort on the dereference of an empty range. -/
theorem visitSuccessors_terminates {σ : Type} (cfg : CFG) (I : InstructionPosition)
    (Ignore : List BasicBlock) (Visitor : σ → BasicBlockRange → VisitAction × σ)
    (State : σ) (Blocks : List BasicBlock) (fuel : Nat)
    (hclosed : ∀ b s, s ∈ cfg.successors b → s ∈ Blocks)
    (hfuel : 1 + (blocksOutside Blocks Ignore).length ≤ fuel) :
    ∃ (e : VisitEnd σ) (New : List BasicBlock) (Skipped : List BasicBlockRange),
      visitSuccessors cfg I Ignore Visitor fuel State = some e ∧
      e.Calls.map Prod.fst ++ Skipped
        = { Parent := I.Parent, Begin := I.Position + 1, End := cfg.size I.Parent }
            :: New.map (wholeBlock cfg) ∧
      New.Nodup ∧ (∀ b ∈ New, b ∉ Ignore ∧ b ∈ Blocks) ∧
      e.Calls.length ≤ 1 + (blocksOutside Blocks Ignore).length ∧
      (I.Position + 1 < cfg.size I.Parent → (∀ b, 0 < cfg.size b) →
        e.isReturned = true) := by
  obtain ⟨e, New, Skipped, he, hc, hN, hA, hret⟩ :=
    visitLoop_terminates cfg Visitor Blocks hclosed fuel
      { Visited := Ignore,
        Queue := [{ Parent := I.Parent, Begin := I.Position + 1, End := cfg.size I.Parent }],
        ExhaustOnly := false, State := State }
      (by simpa using hfuel)
  simp only [List.singleton_append] at hc
  refine ⟨e, New, Skipped, he, hc, hN, hA, ?_, ?_⟩
  · have hlen := congrArg List.length hc
    simp only [List.length_append, List.length_map, List.length_cons] at hlen
    have hnew := length_le_blocksOutside Blocks Ignore New hN hA
    omega
  · intro hI hs
    refine hret ?_ hs
    intro r hmem
    simp only [List.mem_singleton] at hmem
    subst hmem
    exact hI

/-- C25 at a loop of two blocks, from the first instruction of the first
block, without ignored blocks and with a visitor that always continues. -/
theorem visitSuccessors_terminates_witness :
    ∃ (e : VisitEnd Unit) (New : List BasicBlock) (Skipped : List BasicBlockRange),
      visitSuccessors loopOfTwo { Parent := 0, Position := 0 } [] continuingVisitor 3 ()
        = some e ∧
      e.Calls.map Prod.fst ++ Skipped
        = { Parent := 0, Begin := 0 + 1, End := loopOfTwo.size 0 }
            :: New.map (wholeBlock loopOfTwo) ∧
      New.Nodup ∧ (∀ b ∈ New, b ∉ ([] : List BasicBlock) ∧ b ∈ ([0, 1] : List BasicBlock)) ∧
      e.Calls.length ≤ 1 + (blocksOutside [0, 1] []).length ∧
      (0 + 1 < loopOfTwo.size 0 → (∀ b, 0 < loopOfTwo.size b) → e.isReturned = true) :=
  visitSuccessors_terminates loopOfTwo { Parent := 0, Position := 0 } [] continuingVisitor ()
    [0, 1] 3
    (by
      intro b s hs
      simp only [loopOfTwo] at hs
      split_ifs at hs <;> simp_all)
    (by decide)

end OSRA
